import Mathlib

/-!
Verification of the concurrent skip list in `src/skiplist.rs`.

The Rust code keeps a heap of `Arc<RwLock<Node<K>>>` values.  We model the
heap shallowly: every `Node::Inner` ever allocated lives in an arena
(`St.nodes`, indexed by allocation order), the sentinel header's fields are
kept inline in the state, and `Node::Nil` is a distinguished reference.  A
forward link (`Arc<RwLock<Node<K>>>`) becomes an `NRef`.  `Arc::ptr_eq` on
entry nodes is index equality, since each `insert` allocates exactly one new
`Arc` per entry node and links are only ever copied.  The Mersenne twister
(`MT19937`, an external crate) is abstracted as a stream of `u32` draws,
`rng : Nat → Nat`, consumed from index 0; `next_u32` reads the head modulo
`2 ^ 32` and shifts the stream.  The outer `SkipList` wrapper only takes the
global `RwLock` and delegates to `SkipListInner`, so the model is of
`SkipListInner`; loops in the Rust code become fuel-indexed recursions, with
the fuel chosen large enough that, on states satisfying the structural
invariant `WF`, it is never exhausted.  `expect` (a panic) becomes `Option`.
-/

set_option linter.unusedSectionVars false

namespace SkipListProof

/-- A forward reference: the sentinel header node, the entry node allocated
`i`-th (`Node::Inner`), or the `Node::Nil` sentinel. -/
inductive NRef : Type where
  | header : NRef
  | node : Nat → NRef
  | nil : NRef
  deriving DecidableEq, Repr

/-- Arena entry for `Node::Inner`: the `height` field (written by `set_next`,
never read by the operations), the key, and the `links` vector of forward
references. -/
structure NodeData (K : Type) where
  heightF : Nat
  key : K
  links : List NRef
  deriving DecidableEq, Repr

/-- State of `SkipListInner`: the header's `height` field and `links` vector,
the arena of all entry nodes ever allocated, the occupied `height`, the
`size` counter, and the random generator modelled as a stream of `u32`
outputs. -/
structure St (K : Type) where
  headerH : Nat
  headerLinks : List NRef
  nodes : List (NodeData K)
  height : Nat
  size : Nat
  rng : Nat → Nat

variable {K : Type} [LinearOrder K] [Inhabited K]

/-- `Node::next`: `links.get(level).cloned()`; `None` on `Nil` and for a
level outside the `links` vector. -/
def next (s : St K) (r : NRef) (L : Nat) : Option NRef :=
  match r with
  | NRef.nil => none
  | NRef.header => s.headerLinks[L]?
  | NRef.node i =>
    match s.nodes[i]? with
    | some nd => nd.links[L]?
    | none => none

/-- `Node::compare_key`: `None` on the header and on `Nil`, otherwise
`Some(node_key.cmp(key))`. -/
def compareKey (s : St K) (r : NRef) (k : K) : Option Ordering :=
  match r with
  | NRef.header => none
  | NRef.nil => none
  | NRef.node i =>
    match s.nodes[i]? with
    | some nd => some (compare nd.key k)
    | none => none

/-- `Node::set_next`: bump the `height` field to `level + 1` if below it,
then write slot `level`; an inner node's `links` vector is resized (filling
with the new reference) when `level` is beyond its current length, matching
`links.resize(level + 1, next)`. -/
def setNext (s : St K) (r : NRef) (L : Nat) (v : NRef) : St K :=
  match r with
  | NRef.nil => s
  | NRef.header =>
    { s with headerH := max s.headerH (L + 1), headerLinks := s.headerLinks.set L v }
  | NRef.node i =>
    match s.nodes[i]? with
    | some nd =>
      let newLinks :=
        if L < nd.links.length then nd.links.set L v
        else nd.links ++ List.replicate (L + 1 - nd.links.length) v
      let newNd : NodeData K := { nd with heightF := max nd.heightF (L + 1), links := newLinks }
      { s with nodes := s.nodes.set i newNd }
    | none => s

/-- `Node::is_nil`. -/
def isNilR : NRef → Bool
  | NRef.nil => true
  | _ => false

/-- One level of the traversal loop shared by `trace` and `find`: step right
while the right neighbour's key is `Less`; on `Equal` stop and report the
matching node; on a missing neighbour, `Nil`, the header, or `Greater`,
stop with no match.  The fuel bounds the number of steps. -/
def scanLevel (s : St K) (k : K) (L : Nat) : Nat → NRef → NRef × Option NRef
  | 0, cur => (cur, none)
  | fuel + 1, cur =>
    match next s cur L with
    | none => (cur, none)
    | some nxt =>
      match compareKey s nxt k with
      | some Ordering.lt => scanLevel s k L fuel nxt
      | some Ordering.eq => (cur, some nxt)
      | _ => (cur, none)

/-- The level-indexed loop of `SkipListInner::trace`: with `n` levels left it
scans level `n - 1`; the produced list is the `update` array, whose entry at
index `i` is the predecessor at level `maxLevel - i - 1`, exactly as built by
`array::from_fn`.  The `found` flag, once set by an `Equal` comparison, is
kept. -/
def traceGo (s : St K) (k : K) (fuel : Nat) : Nat → NRef → Bool → List NRef × NRef × Bool
  | 0, cur, found => ([], cur, found)
  | n + 1, cur, found =>
    let r := scanLevel s k n fuel cur
    let rest := traceGo s k fuel n r.1 (found || r.2.isSome)
    (r.1 :: rest.1, rest.2)

/-- `SkipListInner::trace`, for a list with `maxH` levels. -/
def trace (maxH : Nat) (s : St K) (k : K) : List NRef × NRef × Bool :=
  traceGo s k (s.nodes.length + 1) maxH NRef.header false

/-- Loop body of `SkipListInner::random_height`: while below `maxH`, draw a
`u32` and increment on a draw divisible by 4; the generator is only advanced
when the height test passes, matching the short-circuit `&&`. -/
def rhGo (maxH : Nat) : Nat → Nat → (Nat → Nat) → Nat × (Nat → Nat)
  | 0, height, g => (height, g)
  | fuel + 1, height, g =>
    if height < maxH then
      if g 0 % 2 ^ 32 % 4 = 0 then rhGo maxH fuel (height + 1) (fun n => g (n + 1))
      else (height, g)
    else (height, g)

/-- `SkipListInner::random_height`: start at 1 and flip until the first
failure or saturation at `maxH`. -/
def random_height (maxH : Nat) (g : Nat → Nat) : Nat × (Nat → Nat) :=
  rhGo maxH maxH 1 g

/-- The relinking loop of `SkipListInner::insert`: for each level
`i < newHeight` (ascending), copy `update[maxH - i - 1]`'s level-`i`
successor (when present) into the new node's level-`i` slot, then point the
predecessor's level-`i` slot at the new node. -/
def insertLoop (maxH : Nat) (update : List NRef) (j : Nat) : Nat → Nat → St K → St K
  | _, 0, s => s
  | i, rem + 1, s =>
    let pred := update.getD (maxH - i - 1) NRef.header
    let s1 :=
      match next s pred i with
      | some arc => setNext s (NRef.node j) i arc
      | none => s
    let s2 := setNext s1 pred i (NRef.node j)
    insertLoop maxH update j (i + 1) rem s2

/-- `SkipListInner::insert`. -/
def insert (maxH : Nat) (s : St K) (k : K) : Bool × St K :=
  let t := trace maxH s k
  if t.2.2 then (false, s)
  else
    let hr := random_height maxH s.rng
    let s1 : St K := { s with rng := hr.2 }
    let s2 : St K := if s1.height < hr.1 then { s1 with height := hr.1 } else s1
    let j := s2.nodes.length
    let s3 : St K := { s2 with nodes := s2.nodes ++ [⟨0, k, []⟩] }
    let s4 := insertLoop maxH t.1 j 0 hr.1 s3
    (true, { s4 with size := s4.size + 1 })

/-- The unlinking loop of `SkipListInner::erase`: for each level `i` from
`maxH - 1` down to 0, if `update[maxH - i - 1]`'s level-`i` successor is
(pointer-)equal to the node being deleted, replace it by that node's own
level-`i` successor (doing nothing in the `None` branch the code marks
unreachable). -/
def eraseLoop (maxH : Nat) (update : List NRef) (del : NRef) : Nat → St K → St K
  | 0, s => s
  | i + 1, s =>
    let pred := update.getD (maxH - i - 1) NRef.header
    let s1 :=
      match next s pred i with
      | some arc =>
        if arc = del then
          match next s del i with
          | some arc2 => setNext s pred i arc2
          | none => s
        else s
      | none => s
    eraseLoop maxH update del i s1

/-- The height-shrinking loop at the end of `SkipListInner::erase`, verbatim:
decrement the occupied height while the header's successor at level
`height - 1` is a non-`Nil` node and the height exceeds 1. -/
def shrinkLoop : Nat → St K → St K
  | 0, s => s
  | fuel + 1, s =>
    match next s NRef.header (s.height - 1) with
    | some arc =>
      if isNilR arc = false ∧ 1 < s.height then
        shrinkLoop fuel { s with height := s.height - 1 }
      else s
    | none => s

/-- `SkipListInner::erase`; `none` models the `expect` panic when the level-0
predecessor has no level-0 successor. -/
def erase (maxH : Nat) (s : St K) (k : K) : Option (Bool × St K) :=
  let t := trace maxH s k
  if !t.2.2 then some (false, s)
  else
    match next s t.2.1 0 with
    | none => none
    | some del =>
      let s1 := eraseLoop maxH t.1 del maxH s
      let s2 : St K := { s1 with size := s1.size - 1 }
      some (true, shrinkLoop s2.height s2)

/-- Per-level loop of `SkipListInner::find`, descending from level
`height - 1`; a match returns the matching node at once. -/
def findGo (s : St K) (k : K) (fuel : Nat) : Nat → NRef → Option NRef
  | 0, _ => none
  | n + 1, cur =>
    match scanLevel s k n fuel cur with
    | (_, some nd) => some nd
    | (cur2, none) => findGo s k fuel n cur2

/-- `SkipListInner::find`. -/
def find (s : St K) (k : K) : Option NRef :=
  findGo s k (s.nodes.length + 1) s.height NRef.header

/-- `SkipListInner::contains`. -/
def contains (s : St K) (k : K) : Bool :=
  (find s k).isSome

/-- `SkipListInner::clear` together with `Node::clear` on the header: every
header slot is overwritten with `Nil`, the header's `height` field goes back
to 1, and the occupied height and size are reset. -/
def clear (s : St K) : St K :=
  { s with headerH := 1,
           headerLinks := s.headerLinks.map (fun _ => NRef.nil),
           height := 1,
           size := 0 }

/-- `SkipListInner::new` with `MAX_HEIGHT = maxH`: a header whose `maxH`
slots all hold the shared `Nil` reference, occupied height 1, size 0. -/
def mkNew (maxH : Nat) (g : Nat → Nat) : St K :=
  { headerH := 1,
    headerLinks := List.replicate maxH NRef.nil,
    nodes := [],
    height := 1,
    size := 0,
    rng := g }

/-- `SkipListInner::size`. -/
def size (s : St K) : Nat := s.size

/-- `SkipListInner::empty`. -/
def empty (s : St K) : Bool := s.size == 0

/-- `links.len()` of the `i`-th arena node, which is what `Node::height`
returns for an inner node; 0 for an index never allocated. -/
def hgt (s : St K) (i : Nat) : Nat :=
  match s.nodes[i]? with
  | some nd => nd.links.length
  | none => 0

/-- Key of the `i`-th arena node. -/
def keyOf (s : St K) (i : Nat) : K :=
  match s.nodes[i]? with
  | some nd => nd.key
  | none => default

/-- Walk the level-`L` list from `r`, collecting arena indices, with fuel;
this is the observable per-level traversal (the level-0 case is the loop in
the `Display` implementation). -/
def walk (s : St K) (L : Nat) : Nat → NRef → List Nat
  | 0, _ => []
  | fuel + 1, r =>
    match next s r L with
    | some (NRef.node i) => i :: walk s L fuel (NRef.node i)
    | _ => []

/-- Indices of the entry nodes linked at level `L`, read off the heap. -/
def levelIdx (s : St K) (L : Nat) : List Nat :=
  walk s L (s.nodes.length + 1) NRef.header

/-- Keys of the entry nodes linked at level `L`, read off the heap. -/
def levelKeys (s : St K) (L : Nat) : List K :=
  (levelIdx s L).map (keyOf s)

/-- The level-`L` list starting at `r` consists exactly of the nodes `is`
and then falls off into `Nil`. -/
def chain (s : St K) (L : Nat) : NRef → List Nat → Prop
  | r, [] => next s r L = some NRef.nil
  | r, i :: is => next s r L = some (NRef.node i) ∧ chain s L (NRef.node i) is

def decChain (s : St K) (L : Nat) : (is : List Nat) → (r : NRef) → Decidable (chain s L r is)
  | [], r => by unfold chain; infer_instance
  | i :: is, r => by
    unfold chain
    exact @instDecidableAnd _ _ inferInstance (decChain s L is (NRef.node i))

instance (s : St K) (L : Nat) (r : NRef) (is : List Nat) : Decidable (chain s L r is) :=
  decChain s L is r

variable {s s1 s2 sO sN : St K} {r r0 : NRef} {L L0 : Nat} {v : NRef} {k : K}

@[simp] theorem next_nil : next s NRef.nil L = none := rfl

theorem next_header : next s NRef.header L = s.headerLinks[L]? := rfl

theorem next_congr (h1 : s1.headerLinks = s2.headerLinks) (h2 : s1.nodes = s2.nodes) :
    next s1 r L = next s2 r L := by
  cases r <;> simp [next, h1, h2]

theorem compareKey_congr (h2 : s1.nodes = s2.nodes) :
    compareKey s1 r k = compareKey s2 r k := by
  cases r <;> simp [compareKey, h2]

theorem hgt_congr (h2 : s1.nodes = s2.nodes) (i : Nat) : hgt s1 i = hgt s2 i := by
  simp [hgt, h2]

theorem keyOf_congr (h2 : s1.nodes = s2.nodes) (i : Nat) : keyOf s1 i = keyOf s2 i := by
  simp [keyOf, h2]

@[simp] theorem setNext_size : (setNext s r L v).size = s.size := by
  cases r with
  | header => rfl
  | nil => rfl
  | node i => simp only [setNext]; cases h : s.nodes[i]? <;> simp [h]

@[simp] theorem setNext_height : (setNext s r L v).height = s.height := by
  cases r with
  | header => rfl
  | nil => rfl
  | node i => simp only [setNext]; cases h : s.nodes[i]? <;> simp [h]

@[simp] theorem setNext_rng : (setNext s r L v).rng = s.rng := by
  cases r with
  | header => rfl
  | nil => rfl
  | node i => simp only [setNext]; cases h : s.nodes[i]? <;> simp [h]

@[simp] theorem setNext_nodes_length : (setNext s r L v).nodes.length = s.nodes.length := by
  cases r with
  | header => rfl
  | nil => rfl
  | node i => simp only [setNext]; cases h : s.nodes[i]? <;> simp [h]

@[simp] theorem setNext_headerLinks_length :
    (setNext s r L v).headerLinks.length = s.headerLinks.length := by
  cases r with
  | header => simp [setNext]
  | nil => rfl
  | node i => simp only [setNext]; cases h : s.nodes[i]? <;> simp [h]

theorem keyOf_setNext (i : Nat) : keyOf (setNext s r L v) i = keyOf s i := by
  cases r with
  | header => rfl
  | nil => rfl
  | node i0 =>
    simp only [setNext]
    cases h : s.nodes[i0]? with
    | none => rfl
    | some nd =>
      have hlt : i0 < s.nodes.length := (List.getElem?_eq_some_iff.mp h).1
      rcases eq_or_ne i i0 with rfl | hne
      · simp [keyOf, List.getElem?_set_self hlt, h]
      · simp [keyOf, List.getElem?_set_ne (Ne.symm hne)]

theorem next_setNext_ne_ref {r0 : NRef} (hne : r ≠ r0) :
    next (setNext s r0 L0 v) r L = next s r L := by
  cases r0 with
  | nil => rfl
  | header =>
    cases r with
    | header => exact absurd rfl hne
    | nil => rfl
    | node i => simp [next, setNext]
  | node i0 =>
    simp only [setNext]
    cases h : s.nodes[i0]? with
    | none => rfl
    | some nd =>
      cases r with
      | header => rfl
      | nil => rfl
      | node i =>
        have hii : i ≠ i0 := fun hc => hne (by rw [hc])
        simp [next, List.getElem?_set_ne (Ne.symm hii)]

theorem next_setNext_header_self (hL : L < s.headerLinks.length) :
    next (setNext s NRef.header L v) NRef.header L = some v := by
  simp [next, setNext, List.getElem?_set_self hL]

theorem next_setNext_header_ne_level (hL : L ≠ L0) :
    next (setNext s NRef.header L0 v) NRef.header L = next s NRef.header L := by
  simp [next, setNext, List.getElem?_set_ne (Ne.symm hL)]

theorem next_setNext_node_inplace_self {i0 : Nat} {nd : NodeData K}
    (h : s.nodes[i0]? = some nd) (hlen : L < nd.links.length) :
    next (setNext s (NRef.node i0) L v) (NRef.node i0) L = some v := by
  have hi0 : i0 < s.nodes.length := (List.getElem?_eq_some_iff.mp h).1
  simp [next, setNext, h, hlen, List.getElem?_set_self hi0,
    List.getElem?_set_self hlen]

theorem next_setNext_node_inplace_ne_level {i0 : Nat} {nd : NodeData K}
    (h : s.nodes[i0]? = some nd) (hlen : L0 < nd.links.length) (hL : L ≠ L0) :
    next (setNext s (NRef.node i0) L0 v) (NRef.node i0) L = next s (NRef.node i0) L := by
  have hi0 : i0 < s.nodes.length := (List.getElem?_eq_some_iff.mp h).1
  simp [next, setNext, h, hlen, List.getElem?_set_self hi0,
    List.getElem?_set_ne (Ne.symm hL)]

theorem setNext_node_append_links {j : Nat} {nd : NodeData K}
    (h : s.nodes[j]? = some nd) (hlen : nd.links.length = L0) :
    (setNext s (NRef.node j) L0 v).nodes[j]? =
      some { nd with heightF := max nd.heightF (L0 + 1), links := nd.links ++ [v] } := by
  have hj : j < s.nodes.length := (List.getElem?_eq_some_iff.mp h).1
  have hnlt : ¬ L0 < nd.links.length := by omega
  simp [setNext, h, hnlt, List.getElem?_set_self hj, hlen]

theorem next_setNext_node_append_lt {j : Nat} {nd : NodeData K}
    (h : s.nodes[j]? = some nd) (hlen : nd.links.length = L0) (hL : L < L0) :
    next (setNext s (NRef.node j) L0 v) (NRef.node j) L = next s (NRef.node j) L := by
  rw [next, setNext_node_append_links h hlen]
  have hL' : L < nd.links.length := by omega
  simp [next, h, List.getElem?_append_left hL']

theorem next_setNext_node_append_self {j : Nat} {nd : NodeData K}
    (h : s.nodes[j]? = some nd) (hlen : nd.links.length = L0) :
    next (setNext s (NRef.node j) L0 v) (NRef.node j) L0 = some v := by
  rw [next, setNext_node_append_links h hlen]
  simp [← hlen, List.getElem?_concat_length]

theorem next_setNext_node_append_gt {j : Nat} {nd : NodeData K}
    (h : s.nodes[j]? = some nd) (hlen : nd.links.length = L0) (hL : L0 < L) :
    next (setNext s (NRef.node j) L0 v) (NRef.node j) L = none := by
  rw [next, setNext_node_append_links h hlen]
  have : (nd.links ++ [v]).length ≤ L := by simp; omega
  simp [List.getElem?_eq_none this]

theorem hgt_setNext_header (i : Nat) : hgt (setNext s NRef.header L v) i = hgt s i := by
  simp [hgt, setNext]

theorem hgt_setNext_node_other {i0 : Nat} (hne : i ≠ i0) :
    hgt (setNext s (NRef.node i0) L v) i = hgt s i := by
  simp only [setNext]
  cases h : s.nodes[i0]? with
  | none => rfl
  | some nd => simp [hgt, List.getElem?_set_ne (Ne.symm hne)]

theorem hgt_setNext_node_inplace {i0 : Nat} {nd : NodeData K}
    (h : s.nodes[i0]? = some nd) (hlen : L < nd.links.length) :
    hgt (setNext s (NRef.node i0) L v) i0 = hgt s i0 := by
  have hi0 : i0 < s.nodes.length := (List.getElem?_eq_some_iff.mp h).1
  simp [hgt, setNext, h, hlen, List.getElem?_set_self hi0]

theorem hgt_setNext_node_append {j : Nat} {nd : NodeData K}
    (h : s.nodes[j]? = some nd) (hlen : nd.links.length = L0) :
    hgt (setNext s (NRef.node j) L0 v) j = L0 + 1 := by
  rw [hgt, setNext_node_append_links h hlen]
  simp [hlen]

/-- The reference at the end of the prefix `r :: xs`: `r` itself when `xs`
is empty, otherwise the last node of `xs`. -/
def lastRef (r : NRef) (xs : List Nat) : NRef :=
  match xs.getLast? with
  | none => r
  | some p => NRef.node p

theorem lastRef_cons (x : Nat) (xs : List Nat) (r : NRef) :
    lastRef r (x :: xs) = lastRef (NRef.node x) xs := by
  cases xs with
  | nil => rfl
  | cons a t =>
    cases hg : (a :: t).getLast? with
    | none => exact absurd hg (by simp)
    | some p => simp [lastRef, List.getLast?_cons_cons, hg]

theorem chain_frame {is : List Nat}
    (hnext : ∀ x ∈ r :: is.map NRef.node, next s2 x L = next s1 x L)
    (h : chain s1 L r is) : chain s2 L r is := by
  induction is generalizing r with
  | nil =>
    unfold chain at h ⊢
    rw [hnext r (by simp)]
    exact h
  | cons i is ih =>
    unfold chain at h ⊢
    refine ⟨?_, ih (fun x hx => hnext x ?_) h.2⟩
    · rw [hnext r (by simp)]; exact h.1
    · simp only [List.map_cons, List.mem_cons] at hx ⊢
      tauto

theorem chain_congr_st (h1 : s1.headerLinks = s2.headerLinks) (h2 : s1.nodes = s2.nodes)
    {is : List Nat} (h : chain s1 L r is) : chain s2 L r is :=
  chain_frame (fun x _ => next_congr h1.symm h2.symm) h

theorem chain_suffix {as bs : List Nat} {b : Nat}
    (h : chain s L r (as ++ b :: bs)) : chain s L (NRef.node b) bs := by
  induction as generalizing r with
  | nil => exact h.2
  | cons a t ih => exact ih h.2

theorem chain_sublist_nodes {is : List Nat} (h : chain s L r is) :
    ∀ x ∈ is, ∃ nd, s.nodes[x]? = some nd := by
  induction is generalizing r with
  | nil => intro x hx; cases hx
  | cons i is ih =>
    intro x hx
    rcases List.mem_cons.mp hx with rfl | hx'
    · rcases h with ⟨h1, h2⟩
      cases is with
      | nil =>
        unfold chain at h2
        simp only [next] at h2
        cases hnd : s.nodes[x]? with
        | none => rw [hnd] at h2; cases h2
        | some nd => exact ⟨nd, rfl⟩
      | cons b bs =>
        rcases h2 with ⟨h2, _⟩
        simp only [next] at h2
        cases hnd : s.nodes[x]? with
        | none => rw [hnd] at h2; cases h2
        | some nd => exact ⟨nd, rfl⟩
    · exact ih h.2 x hx'

theorem chain_splice {sO sN : St K} {L : Nat} {j : Nat} {r : NRef} {xs ys : List Nat}
    (hold : chain sO L r (xs ++ ys))
    (hnd : (r :: xs.map NRef.node).Nodup)
    (h1 : ∀ x ∈ r :: xs.map NRef.node, x ≠ lastRef r xs → next sN x L = next sO x L)
    (h2 : next sN (lastRef r xs) L = some (NRef.node j))
    (h3 : next sN (NRef.node j) L = next sO (lastRef r xs) L)
    (h4 : ∀ y ∈ ys, next sN (NRef.node y) L = next sO (NRef.node y) L) :
    chain sN L r (xs ++ j :: ys) := by
  induction xs generalizing r with
  | nil =>
    have h3' : next sN (NRef.node j) L = next sO r L := h3
    refine ⟨h2, ?_⟩
    cases ys with
    | nil =>
      show next sN (NRef.node j) L = some NRef.nil
      rw [h3']
      exact hold
    | cons y ys' =>
      refine ⟨?_, ?_⟩
      · rw [h3']; exact hold.1
      · refine chain_frame (fun x hx => ?_) hold.2
        have hxy : ∃ a ∈ y :: ys', x = NRef.node a := by
          simp only [List.mem_cons, List.mem_map] at hx
          rcases hx with rfl | ⟨a, ha, rfl⟩
          · exact ⟨y, List.mem_cons_self y ys', rfl⟩
          · exact ⟨a, List.mem_cons_of_mem y ha, rfl⟩
        rcases hxy with ⟨a, ha, rfl⟩
        exact h4 a ha
  | cons x xs' ih =>
    have hpr : lastRef r (x :: xs') = lastRef (NRef.node x) xs' := lastRef_cons x xs' r
    have hrne : r ≠ lastRef r (x :: xs') := by
      intro hc
      have : lastRef r (x :: xs') ∈ (x :: xs').map NRef.node := by
        unfold lastRef
        cases hg : (x :: xs').getLast? with
        | none => simp at hg
        | some p =>
          simp only
          exact List.mem_map_of_mem NRef.node (List.mem_of_mem_getLast? hg)
      rw [← hc] at this
      exact (List.nodup_cons.mp hnd).1 this
    refine ⟨?_, ?_⟩
    · rw [h1 r (by simp) hrne]
      exact hold.1
    · refine ih hold.2 (List.nodup_cons.mp hnd).2 ?_ ?_ ?_
      · intro a ha hane
        refine h1 a ?_ ?_
        · simp only [List.map_cons, List.mem_cons] at ha ⊢
          tauto
        · rw [hpr]; exact hane
      · rw [hpr] at h2; exact h2
      · rw [hpr] at h3; exact h3

theorem chain_unsplice {sO sN : St K} {L : Nat} {d : Nat} {r : NRef} {xs ys : List Nat}
    (hold : chain sO L r (xs ++ d :: ys))
    (hnd : (r :: xs.map NRef.node).Nodup)
    (h1 : ∀ x ∈ r :: xs.map NRef.node, x ≠ lastRef r xs → next sN x L = next sO x L)
    (h2 : next sN (lastRef r xs) L = next sO (NRef.node d) L)
    (h4 : ∀ y ∈ ys, next sN (NRef.node y) L = next sO (NRef.node y) L) :
    chain sN L r (xs ++ ys) := by
  induction xs generalizing r with
  | nil =>
    have hold2 : chain sO L (NRef.node d) ys := hold.2
    have h2' : next sN r L = next sO (NRef.node d) L := h2
    cases ys with
    | nil =>
      show next sN r L = some NRef.nil
      rw [h2']
      exact hold2
    | cons y ys' =>
      refine ⟨?_, ?_⟩
      · rw [h2']; exact hold2.1
      · refine chain_frame (fun x hx => ?_) hold2.2
        have hxy : ∃ a ∈ y :: ys', x = NRef.node a := by
          simp only [List.mem_cons, List.mem_map] at hx
          rcases hx with rfl | ⟨a, ha, rfl⟩
          · exact ⟨y, List.mem_cons_self y ys', rfl⟩
          · exact ⟨a, List.mem_cons_of_mem y ha, rfl⟩
        rcases hxy with ⟨a, ha, rfl⟩
        exact h4 a ha
  | cons x xs' ih =>
    have hpr : lastRef r (x :: xs') = lastRef (NRef.node x) xs' := lastRef_cons x xs' r
    have hrne : r ≠ lastRef r (x :: xs') := by
      intro hc
      have : lastRef r (x :: xs') ∈ (x :: xs').map NRef.node := by
        unfold lastRef
        cases hg : (x :: xs').getLast? with
        | none => simp at hg
        | some p =>
          simp only
          exact List.mem_map_of_mem NRef.node (List.mem_of_mem_getLast? hg)
      rw [← hc] at this
      exact (List.nodup_cons.mp hnd).1 this
    refine ⟨?_, ?_⟩
    · rw [h1 r (by simp) hrne]
      exact hold.1
    · refine ih hold.2 (List.nodup_cons.mp hnd).2 ?_ ?_
      · intro a ha hane
        refine h1 a ?_ ?_
        · simp only [List.map_cons, List.mem_cons] at ha ⊢
          tauto
        · rw [hpr]; exact hane
      · rw [hpr] at h2; exact h2

theorem takeWhile_append_all {α : Type} {p : α → Bool} {xs ys : List α}
    (h : ∀ x ∈ xs, p x = true) :
    (xs ++ ys).takeWhile p = xs ++ ys.takeWhile p := by
  induction xs with
  | nil => simp
  | cons a t ih =>
    simp only [List.cons_append, List.takeWhile_cons, h a (List.mem_cons_self a t), if_true]
    rw [ih (fun x hx => h x (List.mem_cons_of_mem a hx))]

theorem dropWhile_append_all {α : Type} {p : α → Bool} {xs ys : List α}
    (h : ∀ x ∈ xs, p x = true) :
    (xs ++ ys).dropWhile p = ys.dropWhile p := by
  induction xs with
  | nil => simp
  | cons a t ih =>
    simp only [List.cons_append, List.dropWhile_cons, h a (List.mem_cons_self a t), if_true]
    exact ih (fun x hx => h x (List.mem_cons_of_mem a hx))

theorem takeWhile_eq_filter_of_sorted {f : Nat → K} {l : List Nat} {k : K}
    (hs : l.Pairwise (fun i j => f i < f j)) :
    l.takeWhile (fun i => decide (f i < k)) = l.filter (fun i => decide (f i < k)) := by
  induction l with
  | nil => rfl
  | cons a t ih =>
    rcases List.pairwise_cons.mp hs with ⟨ha, ht⟩
    by_cases hak : f a < k
    · simp only [List.takeWhile_cons, List.filter_cons, decide_eq_true hak, if_true, ih ht]
    · simp only [List.takeWhile_cons, List.filter_cons, decide_eq_false hak, if_false,
        Bool.false_eq_true]
      rw [eq_comm, List.filter_eq_nil_iff]
      intro x hx
      have : f a < f x := ha x hx
      simp only [decide_eq_true_eq]
      intro hc
      exact hak (lt_trans this hc)

theorem dropWhile_eq_filter_of_sorted {f : Nat → K} {l : List Nat} {k : K}
    (hs : l.Pairwise (fun i j => f i < f j)) :
    l.dropWhile (fun i => decide (f i < k)) = l.filter (fun i => decide (¬ f i < k)) := by
  induction l with
  | nil => rfl
  | cons a t ih =>
    rcases List.pairwise_cons.mp hs with ⟨ha, ht⟩
    by_cases hak : f a < k
    · simp only [List.dropWhile_cons, List.filter_cons, decide_eq_true hak, if_true, ih ht]
      simp [hak]
    · simp only [List.dropWhile_cons, decide_eq_false hak, Bool.false_eq_true, if_false,
        List.filter_cons]
      have hall : List.filter (fun i => decide (¬ f i < k)) t = t := by
        rw [List.filter_eq_self]
        intro x hx
        have : f a < f x := ha x hx
        simp only [decide_eq_true_eq]
        intro hc
        exact hak (lt_trans this hc)
      rw [if_pos (decide_eq_true hak), hall]

theorem lastRef_append (r : NRef) (xs ys : List Nat) :
    lastRef r (xs ++ ys) = lastRef (lastRef r xs) ys := by
  unfold lastRef
  rw [List.getLast?_append]
  cases hg : ys.getLast? with
  | none => simp
  | some p => simp

theorem lastRef_concat (r : NRef) (xs : List Nat) (p : Nat) :
    lastRef r (xs ++ [p]) = NRef.node p := by
  unfold lastRef
  rw [List.getLast?_concat]

/-- Indices of the live nodes present at level `L` (those of drawn height
above `L`), in key order. -/
def chainAt (s : St K) (live : List Nat) (L : Nat) : List Nat :=
  live.filter (fun i => decide (L < hgt s i))

/-- Structural well-formedness of a state `s` whose live entry nodes are the
arena indices `live`, listed in key order: all live indices are allocated,
their heights lie in `[1, maxH]`, their keys strictly increase, and for
every level `L < maxH` the level-`L` list from the header threads exactly
the live nodes of height above `L`, ending in `Nil`.  The `size` counter
matches, and the occupied height lies in `[1, maxH]`. -/
structure WF (maxH : Nat) (s : St K) (live : List Nat) : Prop where
  one_le_max : 1 ≤ maxH
  header_len : s.headerLinks.length = maxH
  bounded : ∀ i ∈ live, i < s.nodes.length
  hpos : ∀ i ∈ live, 1 ≤ hgt s i
  hle : ∀ i ∈ live, hgt s i ≤ maxH
  sorted : live.Pairwise (fun i j => keyOf s i < keyOf s j)
  chains : ∀ L, L < maxH → chain s L NRef.header (chainAt s live L)
  size_eq : s.size = live.length
  height_pos : 1 ≤ s.height
  height_le : s.height ≤ maxH

theorem WF.nodup {maxH : Nat} {live : List Nat} (h : WF maxH s live) : live.Nodup :=
  h.sorted.imp (fun hlt => by
    intro hc
    rw [hc] at hlt
    exact lt_irrefl _ hlt)

theorem WF.live_length_le {maxH : Nat} {live : List Nat} (h : WF maxH s live) :
    live.length ≤ s.nodes.length := by
  classical
  have hsub : live.toFinset ⊆ Finset.range s.nodes.length := by
    intro i hi
    exact Finset.mem_range.mpr (h.bounded i (List.mem_toFinset.mp hi))
  calc live.length = live.toFinset.card := (List.toFinset_card_of_nodup h.nodup).symm
    _ ≤ (Finset.range s.nodes.length).card := Finset.card_le_card hsub
    _ = s.nodes.length := Finset.card_range _

theorem chainAt_sublist (live : List Nat) (L : Nat) : (chainAt s live L).Sublist live :=
  List.filter_sublist live

theorem mem_chainAt {live : List Nat} {L i : Nat} :
    i ∈ chainAt s live L ↔ i ∈ live ∧ L < hgt s i := by
  simp [chainAt]

/-- The rightmost node with key below `k` at level `L`, or the header if the
level has none: the predecessor `trace` records for level `L`. -/
def predAt (s : St K) (live : List Nat) (k : K) (L : Nat) : NRef :=
  lastRef NRef.header ((chainAt s live L).takeWhile (fun i => decide (keyOf s i < k)))

/-- Level `L` has, right of all nodes with key below `k`, a node whose key
is exactly `k`. -/
def hitAt (s : St K) (live : List Nat) (k : K) (L : Nat) : Prop :=
  ∃ b, ((chainAt s live L).dropWhile (fun i => decide (keyOf s i < k))).head? = some b
    ∧ keyOf s b = k

theorem scanLevel_spec {zs : List Nat} {fuel : Nat} {cur : NRef}
    (hch : chain s L cur zs)
    (hb : ∀ i ∈ zs, i < s.nodes.length)
    (hfuel : zs.length < fuel) :
    (scanLevel s k L fuel cur).1
        = lastRef cur (zs.takeWhile (fun i => decide (keyOf s i < k)))
    ∧ (scanLevel s k L fuel cur).2
        = (match zs.dropWhile (fun i => decide (keyOf s i < k)) with
           | [] => none
           | b :: _ => if keyOf s b = k then some (NRef.node b) else none)
    ∧ chain s L (scanLevel s k L fuel cur).1
        (zs.dropWhile (fun i => decide (keyOf s i < k))) := by
  induction zs generalizing cur fuel with
  | nil =>
    cases fuel with
    | zero => omega
    | succ f =>
      have h0 : next s cur L = some NRef.nil := hch
      simp only [scanLevel, h0, compareKey]
      exact ⟨rfl, rfl, hch⟩
  | cons z zs' ih =>
    cases fuel with
    | zero => simp at hfuel
    | succ f =>
      rcases hch with ⟨h1, h2⟩
      have hz : z < s.nodes.length := hb z (List.mem_cons_self z zs')
      obtain ⟨nd, hnd⟩ : ∃ nd, s.nodes[z]? = some nd := by
        cases hx : s.nodes[z]? with
        | none => rw [List.getElem?_eq_none_iff] at hx; omega
        | some nd => exact ⟨nd, rfl⟩
      have hkz : keyOf s z = nd.key := by simp [keyOf, hnd]
      have hcmp : compareKey s (NRef.node z) k = some (compare (keyOf s z) k) := by
        simp [compareKey, hnd, hkz]
      rcases lt_trichotomy (keyOf s z) k with hlt | heq | hgtk
      · have : compare (keyOf s z) k = Ordering.lt := compare_lt_iff_lt.mpr hlt
        have hrec := ih h2 (fun i hi => hb i (List.mem_cons_of_mem z hi))
          (by simpa using Nat.lt_of_succ_lt_succ hfuel)
        simp only [scanLevel, h1, hcmp, this]
        refine ⟨?_, ?_, ?_⟩
        · rw [hrec.1, List.takeWhile_cons, if_pos (decide_eq_true hlt), lastRef_cons]
        · rw [hrec.2.1, List.dropWhile_cons, if_pos (decide_eq_true hlt)]
        · rw [List.dropWhile_cons, if_pos (decide_eq_true hlt)]
          exact hrec.2.2
      · have : compare (keyOf s z) k = Ordering.eq := compare_eq_iff_eq.mpr heq
        have hnlt : ¬ keyOf s z < k := by rw [heq]; exact lt_irrefl k
        simp only [scanLevel, h1, hcmp, this]
        refine ⟨?_, ?_, ?_⟩
        · rw [List.takeWhile_cons, if_neg (by simp [hnlt])]
          rfl
        · rw [List.dropWhile_cons, if_neg (by simp [hnlt])]
          simp [heq]
        · rw [List.dropWhile_cons, if_neg (by simp [hnlt])]
          exact ⟨h1, h2⟩
      · have : compare (keyOf s z) k = Ordering.gt := compare_gt_iff_gt.mpr hgtk
        have hnlt : ¬ keyOf s z < k := not_lt_of_gt hgtk
        have hnek : ¬ keyOf s z = k := ne_of_gt hgtk
        simp only [scanLevel, h1, hcmp, this]
        refine ⟨?_, ?_, ?_⟩
        · rw [List.takeWhile_cons, if_neg (by simp [hnlt])]
          rfl
        · rw [List.dropWhile_cons, if_neg (by simp [hnlt])]
          simp [hnek]
        · rw [List.dropWhile_cons, if_neg (by simp [hnlt])]
          exact ⟨h1, h2⟩

theorem lastRef_header_eq_node {pre : List Nat} {c : Nat}
    (h : lastRef NRef.header pre = NRef.node c) : pre.getLast? = some c := by
  unfold lastRef at h
  cases hg : pre.getLast? with
  | none => rw [hg] at h; simp at h
  | some q => rw [hg] at h; injection h with h1; rw [h1]

theorem predAt_eq_lastRef {live pre suf : List Nat} {n : Nat} {cur : NRef} {k : K}
    (hsplit : chainAt s live n = pre ++ suf)
    (hpre : ∀ x ∈ pre, keyOf s x < k)
    (hcur : cur = lastRef NRef.header pre) :
    predAt s live k n = lastRef cur (suf.takeWhile (fun i => decide (keyOf s i < k))) := by
  unfold predAt
  rw [hsplit, takeWhile_append_all (fun x hx => decide_eq_true (hpre x hx)),
    lastRef_append, ← hcur]

/-- Invariant of the descending traversal: with `n` levels still to scan,
`cur` sits, at every one of those levels, at the end of a prefix of the
level's node list all of whose keys are below the search key. -/
def Reach (s : St K) (live : List Nat) (k : K) (n : Nat) (cur : NRef) : Prop :=
  ∀ L, L < n → ∃ pre suf, chainAt s live L = pre ++ suf ∧
    (∀ x ∈ pre, keyOf s x < k) ∧ chain s L cur suf ∧ cur = lastRef NRef.header pre

theorem reach_step {live : List Nat} {k : K} {n : Nat} {cur : NRef}
    (hsor : live.Pairwise (fun i j => keyOf s i < keyOf s j))
    (hre : Reach s live k (n + 1) cur) :
    Reach s live k n (predAt s live k n) := by
  obtain ⟨pre, suf, hsplit, hpre, hch, hcur⟩ := hre n (Nat.lt_succ_self n)
  have hpredn : predAt s live k n
      = lastRef cur (suf.takeWhile (fun i => decide (keyOf s i < k))) :=
    predAt_eq_lastRef hsplit hpre hcur
  intro L hLn
  obtain ⟨preL, sufL, hsplitL, hpreL, hchL, hcurL⟩ := hre L (Nat.lt_succ_of_lt hLn)
  cases htw : (suf.takeWhile (fun i => decide (keyOf s i < k))).getLast? with
  | none =>
    have htw0 : suf.takeWhile (fun i => decide (keyOf s i < k)) = [] :=
      List.getLast?_eq_none_iff.mp htw
    have hkeep : predAt s live k n = cur := by rw [hpredn, htw0]; rfl
    exact ⟨preL, sufL, hsplitL, hpreL, by rw [hkeep]; exact hchL, by rw [hkeep]; exact hcurL⟩
  | some p =>
    have hptw : p ∈ suf.takeWhile (fun i => decide (keyOf s i < k)) :=
      List.mem_of_mem_getLast? htw
    have hpk : keyOf s p < k := by
      have hdec := List.mem_takeWhile_imp hptw
      simpa using hdec
    have hpsuf : p ∈ suf := List.Sublist.mem hptw (List.takeWhile_sublist _)
    have hpchain : p ∈ chainAt s live n := by
      rw [hsplit]; exact List.mem_append_right pre hpsuf
    have hplive : p ∈ live := (mem_chainAt.mp hpchain).1
    have hphgt : n < hgt s p := (mem_chainAt.mp hpchain).2
    have hpredn2 : predAt s live k n = NRef.node p := by
      rw [hpredn]; unfold lastRef; rw [htw]
    have hsorL : (chainAt s live L).Pairwise (fun i j => keyOf s i < keyOf s j) :=
      List.Pairwise.sublist (chainAt_sublist live L) hsor
    have hsorN : (chainAt s live n).Pairwise (fun i j => keyOf s i < keyOf s j) :=
      List.Pairwise.sublist (chainAt_sublist live n) hsor
    have hpsufL : p ∈ sufL := by
      cases hq : preL.getLast? with
      | none =>
        have hpreL0 : preL = [] := List.getLast?_eq_none_iff.mp hq
        have hmemL : p ∈ chainAt s live L := mem_chainAt.mpr ⟨hplive, lt_trans hLn hphgt⟩
        rw [hsplitL, hpreL0, List.nil_append] at hmemL
        exact hmemL
      | some c =>
        have hcurc : cur = NRef.node c := by
          rw [hcurL]; unfold lastRef; rw [hq]
        have hcpre : pre.getLast? = some c := lastRef_header_eq_node (hcurc ▸ hcur).symm
        have hcmem : c ∈ pre := List.mem_of_mem_getLast? hcpre
        have hckp : keyOf s c < keyOf s p := by
          rw [hsplit] at hsorN
          exact (List.pairwise_append.mp hsorN).2.2 c hcmem p hpsuf
        have hmemL : p ∈ chainAt s live L := mem_chainAt.mpr ⟨hplive, lt_trans hLn hphgt⟩
        rw [hsplitL] at hmemL
        rcases List.mem_append.mp hmemL with hinL | hok
        · exfalso
          obtain ⟨init, hinit⟩ := List.getLast?_eq_some_iff.mp hq
          have hsorpreL : preL.Pairwise (fun i j => keyOf s i < keyOf s j) := by
            rw [hsplitL] at hsorL
            exact (List.pairwise_append.mp hsorL).1
          rw [hinit] at hinL hsorpreL
          rcases List.mem_append.mp hinL with hpi | hpc
          · have hplt : keyOf s p < keyOf s c :=
              (List.pairwise_append.mp hsorpreL).2.2 p hpi c (List.mem_singleton_self c)
            exact lt_asymm hckp hplt
          · have hpc' : p = c := List.mem_singleton.mp hpc
            rw [hpc'] at hckp
            exact lt_irrefl _ hckp
        · exact hok
    obtain ⟨as, bs, hsufL⟩ := List.append_of_mem hpsufL
    refine ⟨preL ++ (as ++ [p]), bs, ?_, ?_, ?_, ?_⟩
    · rw [hsplitL, hsufL]; simp
    · intro x hx
      rcases List.mem_append.mp hx with hx1 | hx2
      · exact hpreL x hx1
      · rcases List.mem_append.mp hx2 with hxa | hxp
        · have hsorsufL : sufL.Pairwise (fun i j => keyOf s i < keyOf s j) := by
            rw [hsplitL] at hsorL
            exact (List.pairwise_append.mp hsorL).2.1
          rw [hsufL] at hsorsufL
          have hxp' : keyOf s x < keyOf s p :=
            (List.pairwise_append.mp hsorsufL).2.2 x hxa p (List.mem_cons_self p bs)
          exact lt_trans hxp' hpk
        · rw [List.mem_singleton.mp hxp]; exact hpk
    · rw [hpredn2]
      rw [hsufL] at hchL
      exact chain_suffix hchL
    · rw [hpredn2, ← List.append_assoc, lastRef_concat]

theorem traceGo_spec {live : List Nat} {fuel : Nat} {k : K}
    (hsor : live.Pairwise (fun i j => keyOf s i < keyOf s j))
    (hb : ∀ i ∈ live, i < s.nodes.length)
    (hfuel : live.length < fuel) :
    ∀ (n : Nat) (cur : NRef) (found : Bool), Reach s live k n cur →
      (traceGo s k fuel n cur found).1 = (List.range n).reverse.map (predAt s live k) ∧
      (traceGo s k fuel n cur found).2.1 = (if n = 0 then cur else predAt s live k 0) ∧
      ((traceGo s k fuel n cur found).2.2 = true ↔
        (found = true ∨ ∃ L, L < n ∧ hitAt s live k L)) := by
  intro n
  induction n with
  | zero =>
    intro cur found _
    refine ⟨by simp [traceGo], by simp [traceGo], by simp [traceGo]⟩
  | succ n ih =>
    intro cur found hre
    obtain ⟨pre, suf, hsplit, hpre, hch, hcur⟩ := hre n (Nat.lt_succ_self n)
    have hsub : ∀ i ∈ suf, i ∈ live := by
      intro i hi
      have hm : i ∈ chainAt s live n := by
        rw [hsplit]; exact List.mem_append_right pre hi
      exact (mem_chainAt.mp hm).1
    have hblocal : ∀ i ∈ suf, i < s.nodes.length := fun i hi => hb i (hsub i hi)
    have hlen : suf.length < fuel := by
      have h1 : (pre ++ suf).length ≤ live.length := by
        rw [← hsplit]; exact (chainAt_sublist live n).length_le
      simp only [List.length_append] at h1
      omega
    obtain ⟨hs1, hs2, hs3⟩ := scanLevel_spec (k := k) hch hblocal hlen
    have hcur2 : (scanLevel s k n fuel cur).1 = predAt s live k n := by
      rw [hs1, predAt_eq_lastRef hsplit hpre hcur]
    have hfoundn : (scanLevel s k n fuel cur).2.isSome = true ↔ hitAt s live k n := by
      rw [hs2]
      unfold hitAt
      rw [hsplit, dropWhile_append_all (fun x hx => decide_eq_true (hpre x hx))]
      cases hdw : suf.dropWhile (fun i => decide (keyOf s i < k)) with
      | nil => simp
      | cons b bs =>
        by_cases hbk : keyOf s b = k
        · simp [hbk]
        · simp [hbk]
    have hreach2 : Reach s live k n (predAt s live k n) := reach_step hsor hre
    have hrec := ih (scanLevel s k n fuel cur).1
      (found || (scanLevel s k n fuel cur).2.isSome) (by rw [hcur2]; exact hreach2)
    have hT : traceGo s k fuel (n + 1) cur found
        = ((scanLevel s k n fuel cur).1 ::
            (traceGo s k fuel n (scanLevel s k n fuel cur).1
              (found || (scanLevel s k n fuel cur).2.isSome)).1,
           (traceGo s k fuel n (scanLevel s k n fuel cur).1
              (found || (scanLevel s k n fuel cur).2.isSome)).2) := rfl
    rw [hT]
    refine ⟨?_, ?_, ?_⟩
    · show (scanLevel s k n fuel cur).1 :: _ = _
      rw [hrec.1, hcur2, List.range_succ, List.reverse_append]
      simp
    · show (traceGo s k fuel n (scanLevel s k n fuel cur).1
          (found || (scanLevel s k n fuel cur).2.isSome)).2.1 = _
      rw [hrec.2.1, if_neg (Nat.succ_ne_zero n)]
      cases n with
      | zero => rw [if_pos rfl, hcur2]
      | succ m => rw [if_neg (Nat.succ_ne_zero m)]
    · show (traceGo s k fuel n (scanLevel s k n fuel cur).1
          (found || (scanLevel s k n fuel cur).2.isSome)).2.2 = true ↔ _
      rw [hrec.2.2, Bool.or_eq_true]
      constructor
      · rintro ((hf | hx) | ⟨L, hL, hh⟩)
        · exact Or.inl hf
        · exact Or.inr ⟨n, Nat.lt_succ_self n, hfoundn.mp hx⟩
        · exact Or.inr ⟨L, Nat.lt_succ_of_lt hL, hh⟩
      · rintro (hf | ⟨L, hL, hh⟩)
        · exact Or.inl (Or.inl hf)
        · rcases Nat.lt_succ_iff_lt_or_eq.mp hL with hL' | rfl
          · exact Or.inr ⟨L, hL', hh⟩
          · exact Or.inl (Or.inr (hfoundn.mpr hh))

theorem trace_spec {maxH : Nat} {live : List Nat} {k : K} (hwf : WF maxH s live) :
    (trace maxH s k).1 = (List.range maxH).reverse.map (predAt s live k) ∧
    (trace maxH s k).2.1 = predAt s live k 0 ∧
    ((trace maxH s k).2.2 = true ↔ ∃ L, L < maxH ∧ hitAt s live k L) := by
  have hreach : Reach s live k maxH NRef.header := by
    intro L hL
    exact ⟨[], chainAt s live L, by simp, by simp, hwf.chains L hL, rfl⟩
  have hfl : live.length < s.nodes.length + 1 :=
    Nat.lt_succ_of_le hwf.live_length_le
  have h := traceGo_spec hwf.sorted hwf.bounded hfl maxH NRef.header false hreach
  refine ⟨h.1, ?_, ?_⟩
  · show (traceGo s k (s.nodes.length + 1) maxH NRef.header false).2.1 = _
    rw [h.2.1, if_neg (by have := hwf.one_le_max; omega)]
  · show (traceGo s k (s.nodes.length + 1) maxH NRef.header false).2.2 = true ↔ _
    rw [h.2.2]; simp

theorem hitAt_iff_mem {maxH : Nat} {live : List Nat} {k : K} (hwf : WF maxH s live)
    {m : Nat} (hm : 1 ≤ m) :
    (∃ L, L < m ∧ hitAt s live k L) ↔ ∃ i ∈ live, keyOf s i = k := by
  constructor
  · rintro ⟨L, hL, b, hhead, hbk⟩
    have hbmem : b ∈ (chainAt s live L).dropWhile (fun i => decide (keyOf s i < k)) :=
      List.mem_of_mem_head? (by rw [hhead]; rfl)
    have hbl : b ∈ chainAt s live L :=
      List.Sublist.mem hbmem (List.dropWhile_sublist _)
    exact ⟨b, (mem_chainAt.mp hbl).1, hbk⟩
  · rintro ⟨i, hi, hik⟩
    refine ⟨0, hm, ?_⟩
    have hi0 : i ∈ chainAt s live 0 := mem_chainAt.mpr ⟨hi, hwf.hpos i hi⟩
    obtain ⟨as, bs, hsplit⟩ := List.append_of_mem hi0
    have hsor0 : (chainAt s live 0).Pairwise (fun a b => keyOf s a < keyOf s b) :=
      List.Pairwise.sublist (chainAt_sublist live 0) hwf.sorted
    have hdrop : (chainAt s live 0).dropWhile (fun j => decide (keyOf s j < k)) = i :: bs := by
      rw [hsplit] at hsor0
      rw [hsplit, dropWhile_append_all ?hall, List.dropWhile_cons,
        if_neg (by rw [hik]; simp)]
      case hall =>
        intro x hx
        have hxk : keyOf s x < keyOf s i :=
          (List.pairwise_append.mp hsor0).2.2 x hx i (List.mem_cons_self i bs)
        rw [hik] at hxk
        exact decide_eq_true hxk
    exact ⟨i, by rw [hdrop]; rfl, hik⟩

theorem findGo_spec {live : List Nat} {fuel : Nat} {k : K}
    (hsor : live.Pairwise (fun i j => keyOf s i < keyOf s j))
    (hb : ∀ i ∈ live, i < s.nodes.length)
    (hfuel : live.length < fuel) :
    ∀ (n : Nat) (cur : NRef), Reach s live k n cur →
      ((findGo s k fuel n cur).isSome = true ↔ ∃ L, L < n ∧ hitAt s live k L) := by
  intro n
  induction n with
  | zero =>
    intro cur _
    simp [findGo]
  | succ n ih =>
    intro cur hre
    obtain ⟨pre, suf, hsplit, hpre, hch, hcur⟩ := hre n (Nat.lt_succ_self n)
    have hsub : ∀ i ∈ suf, i ∈ live := by
      intro i hi
      have hm : i ∈ chainAt s live n := by
        rw [hsplit]; exact List.mem_append_right pre hi
      exact (mem_chainAt.mp hm).1
    have hblocal : ∀ i ∈ suf, i < s.nodes.length := fun i hi => hb i (hsub i hi)
    have hlen : suf.length < fuel := by
      have h1 : (pre ++ suf).length ≤ live.length := by
        rw [← hsplit]; exact (chainAt_sublist live n).length_le
      simp only [List.length_append] at h1
      omega
    obtain ⟨hs1, hs2, hs3⟩ := scanLevel_spec (k := k) hch hblocal hlen
    have hcur2 : (scanLevel s k n fuel cur).1 = predAt s live k n := by
      rw [hs1, predAt_eq_lastRef hsplit hpre hcur]
    have hfoundn : (scanLevel s k n fuel cur).2.isSome = true ↔ hitAt s live k n := by
      rw [hs2]
      unfold hitAt
      rw [hsplit, dropWhile_append_all (fun x hx => decide_eq_true (hpre x hx))]
      cases hdw : suf.dropWhile (fun i => decide (keyOf s i < k)) with
      | nil => simp
      | cons b bs =>
        by_cases hbk : keyOf s b = k
        · simp [hbk]
        · simp [hbk]
    have hreach2 : Reach s live k n (predAt s live k n) := reach_step hsor hre
    cases hscan : (scanLevel s k n fuel cur).2 with
    | some nd =>
      have heq : findGo s k fuel (n + 1) cur = some nd := by
        show (match scanLevel s k n fuel cur with
              | (_, some nd) => some nd
              | (cur2, none) => findGo s k fuel n cur2) = some nd
        rw [show scanLevel s k n fuel cur = ((scanLevel s k n fuel cur).1, some nd) by
          rw [← hscan]]
      rw [heq]
      simp only [Option.isSome_some, true_iff]
      exact ⟨n, Nat.lt_succ_self n, hfoundn.mp (by rw [hscan]; rfl)⟩
    | none =>
      have heq : findGo s k fuel (n + 1) cur = findGo s k fuel n (scanLevel s k n fuel cur).1 := by
        show (match scanLevel s k n fuel cur with
              | (_, some nd) => some nd
              | (cur2, none) => findGo s k fuel n cur2) = _
        rw [show scanLevel s k n fuel cur = ((scanLevel s k n fuel cur).1, none) by
          rw [← hscan]]
      have hnohit : ¬ hitAt s live k n := by
        intro hc
        have := hfoundn.mpr hc
        rw [hscan] at this
        simp at this
      rw [heq, ih (scanLevel s k n fuel cur).1 (by rw [hcur2]; exact hreach2)]
      constructor
      · rintro ⟨L, hL, hh⟩
        exact ⟨L, Nat.lt_succ_of_lt hL, hh⟩
      · rintro ⟨L, hL, hh⟩
        rcases Nat.lt_succ_iff_lt_or_eq.mp hL with hL' | rfl
        · exact ⟨L, hL', hh⟩
        · exact absurd hh hnohit

theorem contains_spec {maxH : Nat} {live : List Nat} {k : K} (hwf : WF maxH s live) :
    (contains s k = true ↔ ∃ i ∈ live, keyOf s i = k) := by
  have hreach : Reach s live k s.height NRef.header := by
    intro L hL
    exact ⟨[], chainAt s live L, by simp, by simp,
      hwf.chains L (lt_of_lt_of_le hL hwf.height_le), rfl⟩
  have hfl : live.length < s.nodes.length + 1 :=
    Nat.lt_succ_of_le hwf.live_length_le
  have h := findGo_spec hwf.sorted hwf.bounded hfl s.height NRef.header hreach
  unfold contains find
  rw [h, hitAt_iff_mem hwf hwf.height_pos]

theorem chain_append_lastRef {xs ys : List Nat} (h : chain s L r (xs ++ ys)) :
    chain s L (lastRef r xs) ys := by
  induction xs generalizing r with
  | nil => exact h
  | cons x t ih => rw [lastRef_cons]; exact ih h.2

theorem chain_gives_next {is : List Nat} (h : chain s L r is) :
    next s r L = some (match is with | [] => NRef.nil | b :: _ => NRef.node b) := by
  cases is with
  | nil => exact h
  | cons b bs => exact h.1

theorem predAt_cases {maxH : Nat} {live : List Nat} {k : K} {L : Nat}
    (hwf : WF maxH s live) :
    predAt s live k L = NRef.header ∨
    ∃ p, predAt s live k L = NRef.node p ∧ p ∈ live ∧ keyOf s p < k ∧ L < hgt s p := by
  unfold predAt lastRef
  cases htw : ((chainAt s live L).takeWhile (fun i => decide (keyOf s i < k))).getLast? with
  | none => exact Or.inl rfl
  | some p =>
    refine Or.inr ⟨p, rfl, ?_, ?_, ?_⟩
    · have hptw := List.mem_of_mem_getLast? htw
      have hpc : p ∈ chainAt s live L :=
        List.Sublist.mem hptw (List.takeWhile_sublist _)
      exact (mem_chainAt.mp hpc).1
    · have hptw := List.mem_of_mem_getLast? htw
      have hdec := List.mem_takeWhile_imp hptw
      simpa using hdec
    · have hptw := List.mem_of_mem_getLast? htw
      have hpc : p ∈ chainAt s live L :=
        List.Sublist.mem hptw (List.takeWhile_sublist _)
      exact (mem_chainAt.mp hpc).2

theorem chain_predAt {maxH : Nat} {live : List Nat} {k : K} {L : Nat}
    (hwf : WF maxH s live) (hL : L < maxH) :
    chain s L (predAt s live k L)
      ((chainAt s live L).dropWhile (fun i => decide (keyOf s i < k))) := by
  have h := hwf.chains L hL
  rw [← List.takeWhile_append_dropWhile (fun i => decide (keyOf s i < k))
    (chainAt s live L)] at h
  exact chain_append_lastRef h

theorem rhGo_spec (maxH : Nat) :
    ∀ (fuel ht : Nat) (g : Nat → Nat), ht ≤ maxH → maxH - ht ≤ fuel →
      (rhGo maxH fuel ht g).1 =
        ht + ((List.range (maxH - ht)).takeWhile
          (fun n => decide (g n % 2 ^ 32 % 4 = 0))).length := by
  intro fuel
  induction fuel with
  | zero =>
    intro ht g hle hfuel
    have : maxH - ht = 0 := by omega
    rw [this]
    simp [rhGo]
  | succ f ih =>
    intro ht g hle hfuel
    by_cases hlt : ht < maxH
    · have hm : maxH - ht = (maxH - (ht + 1)) + 1 := by omega
      by_cases hbit : g 0 % 2 ^ 32 % 4 = 0
      · have hrec := ih (ht + 1) (fun n => g (n + 1)) (by omega) (by omega)
        have hstep : rhGo maxH (f + 1) ht g = rhGo maxH f (ht + 1) (fun n => g (n + 1)) := by
          simp only [rhGo]
          rw [if_pos hlt, if_pos hbit]
        rw [hstep, hrec, hm, List.range_succ_eq_map, List.takeWhile_cons,
          if_pos (decide_eq_true hbit), List.takeWhile_map]
        have hfun : ((fun n => decide (g n % 2 ^ 32 % 4 = 0)) ∘ Nat.succ)
            = (fun n => decide (g (n + 1) % 2 ^ 32 % 4 = 0)) := rfl
        rw [hfun]
        simp [Nat.add_comm, Nat.add_assoc, Nat.add_left_comm]
      · have hstep : rhGo maxH (f + 1) ht g = (ht, g) := by
          simp only [rhGo]
          rw [if_pos hlt, if_neg hbit]
        rw [hstep, hm, List.range_succ_eq_map, List.takeWhile_cons,
          if_neg (by simpa using hbit)]
        simp
    · have hstep : rhGo maxH (f + 1) ht g = (ht, g) := by
        simp only [rhGo]
        rw [if_neg hlt]
      have : maxH - ht = 0 := by omega
      rw [hstep, this]
      simp

theorem random_height_spec (maxH : Nat) (g : Nat → Nat) (hmax : 1 ≤ maxH) :
    (random_height maxH g).1
      = 1 + ((List.range (maxH - 1)).takeWhile
          (fun n => decide (g n % 2 ^ 32 % 4 = 0))).length
    ∧ 1 ≤ (random_height maxH g).1 ∧ (random_height maxH g).1 ≤ maxH := by
  have h : (random_height maxH g).1
      = 1 + ((List.range (maxH - 1)).takeWhile
          (fun n => decide (g n % 2 ^ 32 % 4 = 0))).length :=
    rhGo_spec maxH maxH 1 g hmax (by omega)
  have hlen : ((List.range (maxH - 1)).takeWhile
      (fun n => decide (g n % 2 ^ 32 % 4 = 0))).length ≤ maxH - 1 := by
    have hsub := (List.takeWhile_sublist
      (fun n => decide (g n % 2 ^ 32 % 4 = 0))
      (l := List.range (maxH - 1))).length_le
    simpa using hsub
  exact ⟨h, by omega, by omega⟩

theorem setNext_nodes_header : (setNext s NRef.header L v).nodes = s.nodes := rfl

theorem setNext_headerLinks_node {i0 : Nat} :
    (setNext s (NRef.node i0) L v).headerLinks = s.headerLinks := by
  simp only [setNext]
  cases h : s.nodes[i0]? <;> rfl

theorem setNext_nodes_get_ne {i0 p : Nat} (hne : p ≠ i0) :
    (setNext s (NRef.node i0) L v).nodes[p]? = s.nodes[p]? := by
  simp only [setNext]
  cases h : s.nodes[i0]? with
  | none => rfl
  | some nd => simp [List.getElem?_set_ne (Ne.symm hne)]

theorem next_append {s' : St K} {ext : List (NodeData K)}
    (hh : s'.headerLinks = s.headerLinks) (hn : s'.nodes = s.nodes ++ ext)
    (hr : ∀ i, r = NRef.node i → i < s.nodes.length) :
    next s' r L = next s r L := by
  cases r with
  | header => simp [next, hh]
  | nil => rfl
  | node i =>
    have hi := hr i rfl
    simp [next, hn, List.getElem?_append_left hi]

theorem keyOf_append {s' : St K} {ext : List (NodeData K)}
    (hn : s'.nodes = s.nodes ++ ext) {i : Nat} (hi : i < s.nodes.length) :
    keyOf s' i = keyOf s i := by
  simp [keyOf, hn, List.getElem?_append_left hi]

theorem hgt_append {s' : St K} {ext : List (NodeData K)}
    (hn : s'.nodes = s.nodes ++ ext) {i : Nat} (hi : i < s.nodes.length) :
    hgt s' i = hgt s i := by
  simp [hgt, hn, List.getElem?_append_left hi]

/-- The write `set_next r L` stays inside the already-allocated `links`
vector (no resize), which is the situation for every predecessor write. -/
def writeOK (s : St K) (r : NRef) (L : Nat) : Prop :=
  (r = NRef.header ∧ L < s.headerLinks.length) ∨
  (∃ p, r = NRef.node p ∧ p < s.nodes.length ∧ L < hgt s p)

theorem writeOK_node {p : Nat} (h : p < s.nodes.length) (hL : L < hgt s p) :
    ∃ nd, s.nodes[p]? = some nd ∧ L < nd.links.length := by
  cases hnd : s.nodes[p]? with
  | none =>
    rw [List.getElem?_eq_none_iff] at hnd
    omega
  | some nd =>
    refine ⟨nd, rfl, ?_⟩
    have hh : hgt s p = nd.links.length := by simp [hgt, hnd]
    omega

theorem next_setNext_writeOK_self {r0 : NRef} (hok : writeOK s r0 L0) :
    next (setNext s r0 L0 v) r0 L0 = some v := by
  rcases hok with ⟨rfl, hlen⟩ | ⟨p, rfl, hp, hL0⟩
  · exact next_setNext_header_self hlen
  · obtain ⟨nd, hnd, hl⟩ := writeOK_node hp hL0
    exact next_setNext_node_inplace_self hnd hl

theorem next_setNext_writeOK_ne {r0 : NRef} (hok : writeOK s r0 L0)
    (hne : r ≠ r0 ∨ L ≠ L0) :
    next (setNext s r0 L0 v) r L = next s r L := by
  rcases eq_or_ne r r0 with rfl | hner
  · have hL : L ≠ L0 := by tauto
    rcases hok with ⟨rfl, hlen⟩ | ⟨p, rfl, hp, hL0⟩
    · exact next_setNext_header_ne_level hL
    · obtain ⟨nd, hnd, hl⟩ := writeOK_node hp hL0
      exact next_setNext_node_inplace_ne_level hnd hl hL
  · exact next_setNext_ne_ref hner

theorem hgt_setNext_le (i : Nat) (r1 : NRef) (L1 : Nat) (w : NRef) :
    hgt s i ≤ hgt (setNext s r1 L1 w) i := by
  cases r1 with
  | header => rw [hgt_setNext_header]
  | nil => exact le_refl _
  | node i0 =>
    rcases eq_or_ne i i0 with rfl | hne
    · cases hnd : s.nodes[i]? with
      | none => simp [setNext, hnd]
      | some nd =>
        by_cases hl : L1 < nd.links.length
        · rw [hgt_setNext_node_inplace hnd hl]
        · have hi : i < s.nodes.length := (List.getElem?_eq_some_iff.mp hnd).1
          have hcomp : hgt (setNext s (NRef.node i) L1 w) i
              = nd.links.length + (L1 + 1 - nd.links.length) := by
            simp [hgt, setNext, hnd, hl, List.getElem?_set_self hi]
          have hbase : hgt s i = nd.links.length := by simp [hgt, hnd]
          omega
    · rw [hgt_setNext_node_other hne]

theorem writeOK_setNext {r0 : NRef} {w0 : NRef} {Lw : Nat} {wv : NRef}
    (hok : writeOK s r0 L0) : writeOK (setNext s w0 Lw wv) r0 L0 := by
  rcases hok with ⟨rfl, hlen⟩ | ⟨p, rfl, hp, hL⟩
  · exact Or.inl ⟨rfl, by rw [setNext_headerLinks_length]; exact hlen⟩
  · exact Or.inr ⟨p, rfl, by rw [setNext_nodes_length]; exact hp,
      lt_of_lt_of_le hL (hgt_setNext_le p w0 Lw wv)⟩

/-- Invariant carried through the relinking loop of `insert`: with levels
below `a` already processed, the new node `j` carries the copied successors
`t` on those levels, each predecessor `P m` points at `j` on level `m < a`,
and everything else is untouched relative to the state `sB` at loop entry. -/
structure LoopInv (sB : St K) (P t : Nat → NRef) (j h : Nat) (a : Nat) (sA : St K) :
    Prop where
  nextP : ∀ m, a ≤ m → m < h → next sA (P m) m = some (t m)
  inplace : ∀ m, m < h → writeOK sA (P m) m
  newNode : ∃ nd, sA.nodes[j]? = some nd ∧ nd.links.length = a
  frame : ∀ r L, r ≠ NRef.node j → (∀ m, m < a → ¬(r = P m ∧ L = m)) →
    next sA r L = next sB r L
  linked : ∀ m, m < a → next sA (P m) m = some (NRef.node j)
  newLinks : ∀ L, L < a → next sA (NRef.node j) L = some (t L)
  hlinks : sA.headerLinks.length = sB.headerLinks.length
  nlen : sA.nodes.length = sB.nodes.length
  keys : ∀ i, keyOf sA i = keyOf sB i
  hgts : ∀ i, i ≠ j → hgt sA i = hgt sB i
  szeq : sA.size = sB.size
  hteq : sA.height = sB.height
  rngeq : sA.rng = sB.rng

theorem insertLoop_inv {maxH : Nat} {update : List NRef} {sB : St K}
    {P t : Nat → NRef} {j h : Nat}
    (hupd : ∀ m, m < h → update.getD (maxH - m - 1) NRef.header = P m)
    (hPj : ∀ m, m < h → P m ≠ NRef.node j) :
    ∀ (rem a : Nat) (sA : St K), a + rem = h → LoopInv sB P t j h a sA →
      LoopInv sB P t j h h (insertLoop maxH update j a rem sA) := by
  intro rem
  induction rem with
  | zero =>
    intro a sA hah hinv
    have ha : a = h := by omega
    subst ha
    exact hinv
  | succ rem ih =>
    intro a sA hah hinv
    have hah' : a < h := by omega
    have hread : next sA (P a) a = some (t a) := hinv.nextP a le_rfl hah'
    have hok : writeOK sA (P a) a := hinv.inplace a hah'
    obtain ⟨ndj, hndj, hlenj⟩ := hinv.newNode
    have hPa : P a ≠ NRef.node j := hPj a hah'
    have hjPa : NRef.node j ≠ P a := Ne.symm hPa
    have hok1 : writeOK (setNext sA (NRef.node j) a (t a)) (P a) a := writeOK_setNext hok
    have hstep : insertLoop maxH update j a (rem + 1) sA
        = insertLoop maxH update j (a + 1) rem
            (setNext (setNext sA (NRef.node j) a (t a)) (P a) a (NRef.node j)) := by
      simp only [insertLoop]
      rw [hupd a hah', hread]
    rw [hstep]
    set s1 := setNext sA (NRef.node j) a (t a) with hs1
    set s2 := setNext s1 (P a) a (NRef.node j) with hs2
    have hs1j := setNext_node_append_links (v := t a) hndj hlenj
    have hs2j : s2.nodes[j]? = s1.nodes[j]? := by
      rcases hok with ⟨hpa, _⟩ | ⟨q, hpa, _, _⟩
      · rw [hs2, hpa]; rfl
      · have hqj : q ≠ j := fun hc => hPa (by rw [hpa, hc])
        rw [hs2, hpa]
        exact setNext_nodes_get_ne (Ne.symm hqj)
    refine ih (a + 1) s2 (by omega) ?_
    refine ⟨?_, ?_, ?_, ?_, ?_, ?_, ?_, ?_, ?_, ?_, ?_, ?_, ?_⟩
    · intro m hm1 hm2
      rw [next_setNext_writeOK_ne hok1 (Or.inr (by omega)),
        next_setNext_ne_ref (hPj m hm2)]
      exact hinv.nextP m (by omega) hm2
    · intro m hm
      exact writeOK_setNext (writeOK_setNext (hinv.inplace m hm))
    · exact ⟨_, hs2j.trans hs1j, by simp [hlenj]⟩
    · intro r L hrj hmm
      have hne : r ≠ P a ∨ L ≠ a := by
        by_contra hc
        push_neg at hc
        exact hmm a (by omega) ⟨hc.1, hc.2⟩
      rw [next_setNext_writeOK_ne hok1 hne, next_setNext_ne_ref hrj]
      exact hinv.frame r L hrj (fun m hm => hmm m (by omega))
    · intro m hm
      rcases Nat.lt_succ_iff_lt_or_eq.mp hm with hm' | rfl
      · rw [next_setNext_writeOK_ne hok1 (Or.inr (by omega)),
          next_setNext_ne_ref (hPj m (by omega))]
        exact hinv.linked m hm'
      · exact next_setNext_writeOK_self hok1
    · intro L hL
      rw [next_setNext_ne_ref hjPa]
      rcases Nat.lt_succ_iff_lt_or_eq.mp hL with hL' | rfl
      · rw [hs1, next_setNext_node_append_lt hndj hlenj hL']
        exact hinv.newLinks L hL'
      · rw [hs1, next_setNext_node_append_self hndj hlenj]
    · rw [hs2, setNext_headerLinks_length, hs1, setNext_headerLinks_length]
      exact hinv.hlinks
    · rw [hs2, setNext_nodes_length, hs1, setNext_nodes_length]
      exact hinv.nlen
    · intro i
      rw [hs2, keyOf_setNext, hs1, keyOf_setNext]
      exact hinv.keys i
    · intro i hij
      have h2 : hgt s2 i = hgt s1 i := by
        rcases hok with ⟨hpa, _⟩ | ⟨q, hpa, hq, hLq⟩
        · rw [hs2, hpa]; exact hgt_setNext_header i
        · rcases eq_or_ne i q with rfl | hne
          · have hq1 : i < s1.nodes.length := by
              rw [hs1, setNext_nodes_length]; exact hq
            have hL1 : a < hgt s1 i := by
              have hmono := hgt_setNext_le (s := sA) i (NRef.node j) a (t a)
              rw [hs1]
              omega
            obtain ⟨nd, hnd, hl⟩ := writeOK_node hq1 hL1
            rw [hs2, hpa]
            exact hgt_setNext_node_inplace hnd hl
          · rw [hs2, hpa]
            exact hgt_setNext_node_other hne
      rw [h2, hs1, hgt_setNext_node_other hij]
      exact hinv.hgts i hij
    · rw [hs2, setNext_size, hs1, setNext_size]; exact hinv.szeq
    · rw [hs2, setNext_height, hs1, setNext_height]; exact hinv.hteq
    · rw [hs2, setNext_rng, hs1, setNext_rng]; exact hinv.rngeq

theorem getD_reverse_range_map {f : Nat → NRef} {maxH m : Nat} (hm : m < maxH) :
    ((List.range maxH).reverse.map f).getD (maxH - m - 1) NRef.header = f m := by
  rw [List.getD_eq_getElem?_getD, List.getElem?_map]
  have hidx : maxH - m - 1 < (List.range maxH).length := by
    rw [List.length_range]; omega
  rw [List.getElem?_reverse hidx, List.length_range]
  have harith : maxH - 1 - (maxH - m - 1) = m := by omega
  rw [harith, List.getElem?_range hm]
  rfl

theorem chainAt_congr {live : List Nat} {L : Nat} (h2 : s1.nodes = s2.nodes) :
    chainAt s1 live L = chainAt s2 live L := by
  unfold chainAt
  exact List.filter_congr (fun i _ => by rw [hgt_congr h2])

theorem chain_set_size {n : Nat} {is : List Nat} (h : chain s L r is) :
    chain { s with size := n } L r is := by
  refine chain_frame (fun x _ => ?_) h
  exact next_congr rfl rfl

/-- The successor recorded by `trace` for the new node at each level: the
first node at or right of the search key, or `Nil`. -/
def succAt (s : St K) (live : List Nat) (k : K) (L : Nat) : NRef :=
  match (chainAt s live L).dropWhile (fun i => decide (keyOf s i < k)) with
  | [] => NRef.nil
  | b :: _ => NRef.node b

theorem insert_spec {maxH : Nat} {live : List Nat} {k : K} (hwf : WF maxH s live)
    (hnk : ¬ ∃ i ∈ live, keyOf s i = k) :
    (insert maxH s k).1 = true ∧
    WF maxH (insert maxH s k).2
      (live.takeWhile (fun i => decide (keyOf s i < k)) ++
        s.nodes.length :: live.dropWhile (fun i => decide (keyOf s i < k))) ∧
    (insert maxH s k).2.nodes.length = s.nodes.length + 1 ∧
    (∀ i, i < s.nodes.length → keyOf (insert maxH s k).2 i = keyOf s i) ∧
    keyOf (insert maxH s k).2 s.nodes.length = k ∧
    (insert maxH s k).2.size = s.size + 1 ∧
    (insert maxH s k).2.height
      = (if s.height < (random_height maxH s.rng).1 then (random_height maxH s.rng).1
         else s.height) ∧
    (insert maxH s k).2.rng = (random_height maxH s.rng).2 := by
  obtain ⟨hts1, hts2, hts3⟩ := trace_spec (k := k) hwf
  have hnf : (trace maxH s k).2.2 = false := by
    rw [Bool.eq_false_iff]
    intro hc
    exact hnk ((hitAt_iff_mem hwf hwf.one_le_max).mp (hts3.mp hc))
  obtain ⟨hrfml, hr1le, hrle⟩ := random_height_spec maxH s.rng hwf.one_le_max
  set sM : St K := { s with rng := (random_height maxH s.rng).2,
                             height := if s.height < (random_height maxH s.rng).1
                                       then (random_height maxH s.rng).1 else s.height,
                             nodes := s.nodes ++ [⟨0, k, []⟩] } with hsM
  set sF : St K := insertLoop maxH (trace maxH s k).1 s.nodes.length 0
      (random_height maxH s.rng).1 sM with hsF
  have hins : insert maxH s k = (true, { sF with size := sF.size + 1 }) := by
    rw [hsF, hsM]
    by_cases hc : s.height < (random_height maxH s.rng).1
    · simp only [insert, hnf, Bool.false_eq_true, if_false, hc, if_true]
    · simp only [insert, hnf, Bool.false_eq_true, if_false, hc, if_false]
  -- base facts about sM
  have hsMh : sM.headerLinks = s.headerLinks := by rw [hsM]
  have hsMn : sM.nodes = s.nodes ++ [⟨0, k, []⟩] := by rw [hsM]
  have hPbound : ∀ m, ∀ i, predAt s live k m = NRef.node i → i < s.nodes.length := by
    intro m i hi
    rcases predAt_cases (k := k) (L := m) hwf with hh | ⟨p, hp, hpl, _, _⟩
    · rw [hh] at hi; cases hi
    · rw [hp] at hi
      injection hi with hii
      rw [← hii]
      exact hwf.bounded p hpl
  have hnextS : ∀ m, m < maxH →
      next s (predAt s live k m) m = some (succAt s live k m) := by
    intro m hm
    have hch := chain_predAt (k := k) hwf hm
    unfold succAt
    cases hdw : (chainAt s live m).dropWhile (fun i => decide (keyOf s i < k)) with
    | nil => rw [hdw] at hch; exact hch
    | cons b bs => rw [hdw] at hch; exact hch.1
  have hnextMid : ∀ m, m < maxH →
      next sM (predAt s live k m) m = some (succAt s live k m) := by
    intro m hm
    rw [next_append hsMh hsMn (hPbound m)]
    exact hnextS m hm
  have hPneq : ∀ m, predAt s live k m ≠ NRef.node s.nodes.length := by
    intro m hc
    have := hPbound m s.nodes.length hc
    omega
  have hupd : ∀ m, m < (random_height maxH s.rng).1 →
      (trace maxH s k).1.getD (maxH - m - 1) NRef.header = predAt s live k m := by
    intro m hm
    rw [hts1]
    exact getD_reverse_range_map (lt_of_lt_of_le hm hrle)
  have hinv0 : LoopInv sM (predAt s live k) (succAt s live k) s.nodes.length
      (random_height maxH s.rng).1 0 sM := by
    refine ⟨?_, ?_, ?_, ?_, ?_, ?_, rfl, rfl, fun i => rfl, fun i _ => rfl, rfl, rfl, rfl⟩
    · intro m _ hm2
      exact hnextMid m (lt_of_lt_of_le hm2 hrle)
    · intro m hm
      rcases predAt_cases (k := k) (L := m) hwf with hh | ⟨p, hp, hpl, _, hph⟩
      · refine Or.inl ⟨hh, ?_⟩
        rw [hsMh, hwf.header_len]
        exact lt_of_lt_of_le hm hrle
      · refine Or.inr ⟨p, hp, ?_, ?_⟩
        · rw [hsMn, List.length_append]
          have := hwf.bounded p hpl
          simp
          omega
        · rw [hgt_append hsMn (hwf.bounded p hpl)]
          exact hph
    · refine ⟨⟨0, k, []⟩, ?_, rfl⟩
      rw [hsMn]
      exact List.getElem?_concat_length s.nodes _
    · intro r L _ _
      rfl
    · intro m hm
      cases hm
    · intro L hL
      cases hL
  have hfin : LoopInv sM (predAt s live k) (succAt s live k) s.nodes.length
      (random_height maxH s.rng).1 (random_height maxH s.rng).1 sF :=
    insertLoop_inv hupd (fun m _ => hPneq m) (random_height maxH s.rng).1 0 sM
      (by omega) hinv0
  -- keys and heights in sF
  have hkeyF : ∀ i, i < s.nodes.length → keyOf sF i = keyOf s i := by
    intro i hi
    rw [hfin.keys i, keyOf_append hsMn hi]
  have hkeyFj : keyOf sF s.nodes.length = k := by
    rw [hfin.keys s.nodes.length]
    unfold keyOf
    rw [hsMn, List.getElem?_concat_length]
  have hgtF : ∀ i, i < s.nodes.length → hgt sF i = hgt s i := by
    intro i hi
    rw [hfin.hgts i (by omega), hgt_append hsMn hi]
  have hgtFj : hgt sF s.nodes.length = (random_height maxH s.rng).1 := by
    obtain ⟨nd, hnd, hlen⟩ := hfin.newNode
    simp [hgt, hnd, hlen]
  have hnlenF : sF.nodes.length = s.nodes.length + 1 := by
    rw [hfin.nlen, hsMn, List.length_append]
    rfl
  -- membership helpers
  have hmemlt : ∀ x ∈ live.takeWhile (fun i => decide (keyOf s i < k)), x ∈ live :=
    fun x hx => List.Sublist.mem hx (List.takeWhile_sublist _)
  have hmemge : ∀ x ∈ live.dropWhile (fun i => decide (keyOf s i < k)), x ∈ live :=
    fun x hx => List.Sublist.mem hx (List.dropWhile_sublist _)
  have hltk : ∀ x ∈ live.takeWhile (fun i => decide (keyOf s i < k)), keyOf s x < k := by
    intro x hx
    have := List.mem_takeWhile_imp hx
    simpa using this
  have hgedrop : live.dropWhile (fun i => decide (keyOf s i < k))
      = live.filter (fun i => decide (¬ keyOf s i < k)) :=
    dropWhile_eq_filter_of_sorted hwf.sorted
  have hgek : ∀ y ∈ live.dropWhile (fun i => decide (keyOf s i < k)), k < keyOf s y := by
    intro y hy
    have hyl := hmemge y hy
    rw [hgedrop] at hy
    have hnlt : ¬ keyOf s y < k := by
      have := (List.mem_filter.mp hy).2
      simpa using this
    rcases lt_or_eq_of_le (le_of_not_lt hnlt) with hlt | heq
    · exact hlt
    · exact absurd ⟨y, hyl, heq.symm⟩ hnk
  have hnodeinj : Function.Injective NRef.node := fun a b hab => by injection hab
  -- well-formedness of the final state
  have hwf' : WF maxH { sF with size := sF.size + 1 }
      (live.takeWhile (fun i => decide (keyOf s i < k)) ++
        s.nodes.length :: live.dropWhile (fun i => decide (keyOf s i < k))) := by
    have hkeyS : ∀ i, i < s.nodes.length →
        keyOf { sF with size := sF.size + 1 } i = keyOf s i := hkeyF
    have hgtSold : ∀ i, i < s.nodes.length →
        hgt { sF with size := sF.size + 1 } i = hgt s i := hgtF
    refine ⟨hwf.one_le_max, ?_, ?_, ?_, ?_, ?_, ?_, ?_, ?_, ?_⟩
    · show sF.headerLinks.length = maxH
      rw [hfin.hlinks, hsMh, hwf.header_len]
    · intro i hi
      show i < sF.nodes.length
      rw [hnlenF]
      rcases List.mem_append.mp hi with hx | hx
      · have := hwf.bounded i (hmemlt i hx)
        omega
      · rcases List.mem_cons.mp hx with rfl | hx'
        · omega
        · have := hwf.bounded i (hmemge i hx')
          omega
    · intro i hi
      rcases List.mem_append.mp hi with hx | hx
      · rw [hgtSold i (hwf.bounded i (hmemlt i hx))]
        exact hwf.hpos i (hmemlt i hx)
      · rcases List.mem_cons.mp hx with rfl | hx'
        · show 1 ≤ hgt sF s.nodes.length
          rw [hgtFj]
          exact hr1le
        · rw [hgtSold i (hwf.bounded i (hmemge i hx'))]
          exact hwf.hpos i (hmemge i hx')
    · intro i hi
      rcases List.mem_append.mp hi with hx | hx
      · rw [hgtSold i (hwf.bounded i (hmemlt i hx))]
        exact hwf.hle i (hmemlt i hx)
      · rcases List.mem_cons.mp hx with rfl | hx'
        · show hgt sF s.nodes.length ≤ maxH
          rw [hgtFj]
          exact hrle
        · rw [hgtSold i (hwf.bounded i (hmemge i hx'))]
          exact hwf.hle i (hmemge i hx')
    · -- sorted
      rw [List.pairwise_append]
      refine ⟨?_, ?_, ?_⟩
      · refine List.Pairwise.imp_of_mem ?_
          (List.Pairwise.sublist (List.takeWhile_sublist _) hwf.sorted)
        intro a b ha hb hr
        rw [hkeyS a (hwf.bounded a (hmemlt a ha)), hkeyS b (hwf.bounded b (hmemlt b hb))]
        exact hr
      · rw [List.pairwise_cons]
        constructor
        · intro y hy
          show keyOf { sF with size := sF.size + 1 } s.nodes.length < _
          rw [show keyOf { sF with size := sF.size + 1 } s.nodes.length = k from hkeyFj,
            hkeyS y (hwf.bounded y (hmemge y hy))]
          exact hgek y hy
        · refine List.Pairwise.imp_of_mem ?_
            (List.Pairwise.sublist (List.dropWhile_sublist _) hwf.sorted)
          intro a b ha hb hr
          rw [hkeyS a (hwf.bounded a (hmemge a ha)), hkeyS b (hwf.bounded b (hmemge b hb))]
          exact hr
      · intro a ha b hb
        have hak : keyOf s a < k := hltk a ha
        rcases List.mem_cons.mp hb with rfl | hb'
        · rw [hkeyS a (hwf.bounded a (hmemlt a ha)),
            show keyOf { sF with size := sF.size + 1 } s.nodes.length = k from hkeyFj]
          exact hak
        · rw [hkeyS a (hwf.bounded a (hmemlt a ha)), hkeyS b (hwf.bounded b (hmemge b hb'))]
          exact lt_trans hak (hgek b hb')
    · -- chains
      intro L hL
      have hsorC : (chainAt s live L).Pairwise (fun a b => keyOf s a < keyOf s b) :=
        List.Pairwise.sublist (chainAt_sublist live L) hwf.sorted
      have htwC : (chainAt s live L).takeWhile (fun i => decide (keyOf s i < k))
          = (live.takeWhile (fun i => decide (keyOf s i < k))).filter
              (fun i => decide (L < hgt s i)) := by
        rw [takeWhile_eq_filter_of_sorted hsorC,
          takeWhile_eq_filter_of_sorted hwf.sorted]
        unfold chainAt
        rw [List.filter_comm]
      have hdwC : (chainAt s live L).dropWhile (fun i => decide (keyOf s i < k))
          = (live.dropWhile (fun i => decide (keyOf s i < k))).filter
              (fun i => decide (L < hgt s i)) := by
        rw [dropWhile_eq_filter_of_sorted hsorC,
          dropWhile_eq_filter_of_sorted hwf.sorted]
        unfold chainAt
        rw [List.filter_comm]
      have hsplitC : chainAt s live L
          = (live.takeWhile (fun i => decide (keyOf s i < k))).filter
              (fun i => decide (L < hgt s i)) ++
            (live.dropWhile (fun i => decide (keyOf s i < k))).filter
              (fun i => decide (L < hgt s i)) := by
        rw [← htwC, ← hdwC, List.takeWhile_append_dropWhile]
      have hpredL : predAt s live k L
          = lastRef NRef.header ((live.takeWhile (fun i => decide (keyOf s i < k))).filter
              (fun i => decide (L < hgt s i))) := by
        unfold predAt
        rw [htwC]
      have hmemPS : ∀ x ∈ (live.takeWhile (fun i => decide (keyOf s i < k))).filter
            (fun i => decide (L < hgt s i)) ++
          (live.dropWhile (fun i => decide (keyOf s i < k))).filter
            (fun i => decide (L < hgt s i)), x ∈ live := by
        intro x hx
        rcases List.mem_append.mp hx with hx | hx
        · exact hmemlt x (List.Sublist.mem hx (List.filter_sublist _))
        · exact hmemge x (List.Sublist.mem hx (List.filter_sublist _))
      have hold0 : chain s L NRef.header
          ((live.takeWhile (fun i => decide (keyOf s i < k))).filter
              (fun i => decide (L < hgt s i)) ++
            (live.dropWhile (fun i => decide (keyOf s i < k))).filter
              (fun i => decide (L < hgt s i))) := by
        rw [← hsplitC]
        exact hwf.chains L hL
      have holdM : chain sM L NRef.header
          ((live.takeWhile (fun i => decide (keyOf s i < k))).filter
              (fun i => decide (L < hgt s i)) ++
            (live.dropWhile (fun i => decide (keyOf s i < k))).filter
              (fun i => decide (L < hgt s i))) := by
        refine chain_frame (fun x hx => ?_) hold0
        rcases List.mem_cons.mp hx with rfl | hx'
        · exact next_append hsMh hsMn (fun i hi => by cases hi)
        · obtain ⟨a, ha, rfl⟩ := List.mem_map.mp hx'
          exact next_append hsMh hsMn (fun i hi => by
            injection hi with hii
            rw [← hii]
            exact hwf.bounded a (hmemPS a ha))
      have hcS : chainAt { sF with size := sF.size + 1 }
          (live.takeWhile (fun i => decide (keyOf s i < k)) ++
            s.nodes.length :: live.dropWhile (fun i => decide (keyOf s i < k))) L
          = (live.takeWhile (fun i => decide (keyOf s i < k))).filter
              (fun i => decide (L < hgt s i)) ++
            (if L < (random_height maxH s.rng).1
             then s.nodes.length :: (live.dropWhile (fun i => decide (keyOf s i < k))).filter
                (fun i => decide (L < hgt s i))
             else (live.dropWhile (fun i => decide (keyOf s i < k))).filter
                (fun i => decide (L < hgt s i))) := by
        unfold chainAt
        rw [List.filter_append, List.filter_cons]
        congr 1
        · refine List.filter_congr ?_
          intro x hx
          rw [show hgt { sF with size := sF.size + 1 } x = hgt s x from
            hgtSold x (hwf.bounded x (hmemlt x hx))]
        · have hj : hgt { sF with size := sF.size + 1 } s.nodes.length
              = (random_height maxH s.rng).1 := hgtFj
          have hrest : (live.dropWhile (fun i => decide (keyOf s i < k))).filter
                (fun i => decide (L < hgt { sF with size := sF.size + 1 } i))
              = (live.dropWhile (fun i => decide (keyOf s i < k))).filter
                (fun i => decide (L < hgt s i)) := by
            refine List.filter_congr ?_
            intro x hx
            rw [show hgt { sF with size := sF.size + 1 } x = hgt s x from
              hgtSold x (hwf.bounded x (hmemge x hx))]
          by_cases hLh : L < (random_height maxH s.rng).1
          · rw [if_pos (by rw [hj]; exact decide_eq_true hLh), if_pos hLh, hrest]
          · rw [if_neg (by rw [hj]; simpa using hLh), if_neg hLh, hrest]
      rw [hcS]
      by_cases hLh : L < (random_height maxH s.rng).1
      · rw [if_pos hLh]
        have hchF : chain sF L NRef.header
            ((live.takeWhile (fun i => decide (keyOf s i < k))).filter
                (fun i => decide (L < hgt s i)) ++
              s.nodes.length :: (live.dropWhile (fun i => decide (keyOf s i < k))).filter
                (fun i => decide (L < hgt s i))) := by
          refine chain_splice holdM ?_ ?_ ?_ ?_ ?_
          · rw [List.nodup_cons]
            constructor
            · intro hc
              obtain ⟨a, _, ha⟩ := List.mem_map.mp hc
              cases ha
            · refine List.Nodup.map hnodeinj ?_
              exact List.Sublist.nodup
                (List.Sublist.trans (List.filter_sublist _) (List.takeWhile_sublist _))
                hwf.nodup
          · intro x hx hxne
            refine hfin.frame x L ?_ ?_
            · rcases List.mem_cons.mp hx with rfl | hx'
              · intro hc; cases hc
              · obtain ⟨a, ha, rfl⟩ := List.mem_map.mp hx'
                intro hc
                injection hc with hii
                have := hwf.bounded a (hmemlt a (List.Sublist.mem ha (List.filter_sublist _)))
                omega
            · intro m hm hxm
              rcases hxm with ⟨hx1, hx2⟩
              rw [← hx2] at hx1
              rw [hx1, hpredL] at hxne
              exact hxne rfl
          · rw [← hpredL]
            exact hfin.linked L hLh
          · rw [← hpredL, hnextMid L hL]
            exact hfin.newLinks L hLh
          · intro y hy
            refine hfin.frame (NRef.node y) L ?_ ?_
            · intro hc
              injection hc with hii
              have := hwf.bounded y (hmemge y (List.Sublist.mem hy (List.filter_sublist _)))
              omega
            · intro m hm hxm
              rcases hxm with ⟨hx1, hx2⟩
              rw [← hx2] at hx1
              rcases predAt_cases (k := k) (L := L) hwf with hh | ⟨p, hp, hpl, hpk2, _⟩
              · rw [hh] at hx1; cases hx1
              · rw [hp] at hx1
                injection hx1 with hii
                rw [← hii] at hpk2
                exact absurd hpk2 (not_lt_of_gt (hgek y
                  (List.Sublist.mem hy (List.filter_sublist _))))
        exact chain_set_size hchF
      · rw [if_neg hLh]
        have hchF : chain sF L NRef.header
            ((live.takeWhile (fun i => decide (keyOf s i < k))).filter
                (fun i => decide (L < hgt s i)) ++
              (live.dropWhile (fun i => decide (keyOf s i < k))).filter
                (fun i => decide (L < hgt s i))) := by
          refine chain_frame (fun x hx => ?_) holdM
          refine hfin.frame x L ?_ ?_
          · rcases List.mem_cons.mp hx with rfl | hx'
            · intro hc; cases hc
            · obtain ⟨a, ha, rfl⟩ := List.mem_map.mp hx'
              intro hc
              injection hc with hii
              have := hwf.bounded a (hmemPS a ha)
              omega
          · intro m hm hxm
            exact absurd (hxm.2 ▸ hm) hLh
        exact chain_set_size hchF
    · -- size
      show sF.size + 1 = _
      rw [hfin.szeq]
      have hszM : sM.size = s.size := by rw [hsM]
      rw [hszM, hwf.size_eq, List.length_append, List.length_cons]
      have := congrArg List.length (List.takeWhile_append_dropWhile
        (fun i => decide (keyOf s i < k)) live)
      rw [List.length_append] at this
      omega
    · show 1 ≤ sF.height
      rw [hfin.hteq]
      have hhtM : sM.height = if s.height < (random_height maxH s.rng).1
          then (random_height maxH s.rng).1 else s.height := by rw [hsM]
      rw [hhtM]
      by_cases hc : s.height < (random_height maxH s.rng).1
      · rw [if_pos hc]; exact hr1le
      · rw [if_neg hc]; exact hwf.height_pos
    · show sF.height ≤ maxH
      rw [hfin.hteq]
      have hhtM : sM.height = if s.height < (random_height maxH s.rng).1
          then (random_height maxH s.rng).1 else s.height := by rw [hsM]
      rw [hhtM]
      by_cases hc : s.height < (random_height maxH s.rng).1
      · rw [if_pos hc]; exact hrle
      · rw [if_neg hc]; exact hwf.height_le
  refine ⟨by rw [hins], by rw [hins]; exact hwf', by rw [hins]; exact hnlenF,
    by rw [hins]; exact hkeyF, by rw [hins]; exact hkeyFj, ?_, ?_, ?_⟩
  · rw [hins]
    show sF.size + 1 = s.size + 1
    rw [hfin.szeq]
  · rw [hins]
    show sF.height = _
    rw [hfin.hteq]
  · rw [hins]
    show sF.rng = _
    rw [hfin.rngeq]

theorem insert_found {maxH : Nat} {live : List Nat} {k : K} (hwf : WF maxH s live)
    (hk : ∃ i ∈ live, keyOf s i = k) :
    insert maxH s k = (false, s) := by
  have htr : (trace maxH s k).2.2 = true :=
    (trace_spec hwf).2.2.mpr ((hitAt_iff_mem hwf hwf.one_le_max).mpr hk)
  simp [insert, htr]

theorem takeWhile_chainAt_eq {maxH : Nat} {live : List Nat} {k : K} {L : Nat}
    (hwf : WF maxH s live) :
    (chainAt s live L).takeWhile (fun i => decide (keyOf s i < k))
      = (live.takeWhile (fun i => decide (keyOf s i < k))).filter
          (fun i => decide (L < hgt s i)) := by
  have hsorC : (chainAt s live L).Pairwise (fun a b => keyOf s a < keyOf s b) :=
    List.Pairwise.sublist (chainAt_sublist live L) hwf.sorted
  rw [takeWhile_eq_filter_of_sorted hsorC, takeWhile_eq_filter_of_sorted hwf.sorted]
  unfold chainAt
  rw [List.filter_comm]

theorem dropWhile_chainAt_eq {maxH : Nat} {live : List Nat} {k : K} {L : Nat}
    (hwf : WF maxH s live) :
    (chainAt s live L).dropWhile (fun i => decide (keyOf s i < k))
      = (live.dropWhile (fun i => decide (keyOf s i < k))).filter
          (fun i => decide (L < hgt s i)) := by
  have hsorC : (chainAt s live L).Pairwise (fun a b => keyOf s a < keyOf s b) :=
    List.Pairwise.sublist (chainAt_sublist live L) hwf.sorted
  rw [dropWhile_eq_filter_of_sorted hsorC, dropWhile_eq_filter_of_sorted hwf.sorted]
  unfold chainAt
  rw [List.filter_comm]

theorem chainAt_zero {maxH : Nat} {live : List Nat} (hwf : WF maxH s live) :
    chainAt s live 0 = live := by
  unfold chainAt
  rw [List.filter_eq_self]
  intro i hi
  exact decide_eq_true (hwf.hpos i hi)

theorem isNilR_eq_false {arc : NRef} : isNilR arc = false ↔ arc ≠ NRef.nil := by
  cases arc <;> simp [isNilR]

/-- Largest drawn height among the nodes of `live` (0 when empty): the true
highest populated level is `maxHgt - 1`. -/
def maxHgt (s : St K) (live : List Nat) : Nat :=
  live.foldr (fun i a => max (hgt s i) a) 0

theorem lt_maxHgt_iff {live : List Nat} {L : Nat} :
    L < maxHgt s live ↔ ∃ i ∈ live, L < hgt s i := by
  induction live with
  | nil => simp [maxHgt]
  | cons a t ih =>
    show L < max (hgt s a) (maxHgt s t) ↔ _
    rw [lt_max_iff, ih]
    constructor
    · rintro (h | ⟨i, hi, hh⟩)
      · exact ⟨a, List.mem_cons_self a t, h⟩
      · exact ⟨i, List.mem_cons_of_mem a hi, hh⟩
    · rintro ⟨i, hi, hh⟩
      rcases List.mem_cons.mp hi with rfl | hi'
      · exact Or.inl hh
      · exact Or.inr ⟨i, hi', hh⟩

/-- Invariant carried (downwards) through the unlinking loop of `erase`:
levels at or above the counter are already rewired past `d` wherever `d`
occupied them; everything else agrees with the entry state `sB`. -/
structure EraseInv (sB : St K) (P : Nat → NRef) (d : Nat) (maxH : Nat) (c : Nat)
    (sA : St K) : Prop where
  done : ∀ m, c ≤ m → m < maxH → m < hgt sB d → next sA (P m) m = next sB (NRef.node d) m
  frame : ∀ r L, (∀ m, c ≤ m → m < maxH → ¬(r = P m ∧ L = m ∧ m < hgt sB d)) →
    next sA r L = next sB r L
  wrOK : ∀ m, m < maxH → writeOK sA (P m) m
  hlinks : sA.headerLinks.length = sB.headerLinks.length
  nlen : sA.nodes.length = sB.nodes.length
  keys : ∀ i, keyOf sA i = keyOf sB i
  hgts : ∀ i, hgt sA i = hgt sB i
  szeq : sA.size = sB.size
  hteq : sA.height = sB.height
  rngeq : sA.rng = sB.rng

theorem eraseLoop_inv {maxH : Nat} {update : List NRef} {sB : St K}
    {P : Nat → NRef} {d : Nat}
    (hupd : ∀ m, m < maxH → update.getD (maxH - m - 1) NRef.header = P m)
    (hPd : ∀ m, m < maxH → P m ≠ NRef.node d)
    (hPread : ∀ m, m < maxH → m < hgt sB d → next sB (P m) m = some (NRef.node d))
    (hnotd : ∀ m, m < maxH → ¬ m < hgt sB d → next sB (P m) m ≠ some (NRef.node d))
    (hdOK : ∀ m, m < maxH → m < hgt sB d → ∃ arc2, next sB (NRef.node d) m = some arc2) :
    ∀ (c : Nat) (sA : St K), c ≤ maxH → EraseInv sB P d maxH c sA →
      EraseInv sB P d maxH 0 (eraseLoop maxH update (NRef.node d) c sA) := by
  intro c
  induction c with
  | zero =>
    intro sA _ hinv
    exact hinv
  | succ c ih =>
    intro sA hcm hinv
    have hc1 : c < maxH := by omega
    have hread : next sA (P c) c = next sB (P c) c := by
      refine hinv.frame (P c) c ?_
      intro m hm1 hm2 hx
      omega
    have hreadd : next sA (NRef.node d) c = next sB (NRef.node d) c := by
      refine hinv.frame (NRef.node d) c ?_
      intro m hm1 hm2 hx
      exact hPd m hm2 hx.1.symm
    by_cases hdc : c < hgt sB d
    · have hreadv : next sA (P c) c = some (NRef.node d) := by
        rw [hread]; exact hPread c hc1 hdc
      obtain ⟨arc2, harc2⟩ := hdOK c hc1 hdc
      have hreaddv : next sA (NRef.node d) c = some arc2 := by rw [hreadd]; exact harc2
      have hstep : eraseLoop maxH update (NRef.node d) (c + 1) sA
          = eraseLoop maxH update (NRef.node d) c (setNext sA (P c) c arc2) := by
        simp only [eraseLoop, hupd c hc1, hreadv, hreaddv, eq_self_iff_true, if_true]
      rw [hstep]
      have hokc : writeOK sA (P c) c := hinv.wrOK c hc1
      refine ih (setNext sA (P c) c arc2) (by omega) ?_
      refine ⟨?_, ?_, ?_, ?_, ?_, ?_, ?_, ?_, ?_, ?_⟩
      · intro m hm1 hm2 hm3
        rcases Nat.eq_or_lt_of_le hm1 with rfl | hm1'
        · rw [next_setNext_writeOK_self hokc, harc2]
        · rw [next_setNext_writeOK_ne hokc (Or.inr (by omega))]
          exact hinv.done m (by omega) hm2 hm3
      · intro r L hex
        have hne : r ≠ P c ∨ L ≠ c := by
          by_contra hcon
          push_neg at hcon
          exact hex c le_rfl hc1 ⟨hcon.1, hcon.2, hdc⟩
        rw [next_setNext_writeOK_ne hokc hne]
        exact hinv.frame r L (fun m hm1 hm2 => hex m (by omega) hm2)
      · intro m hm
        exact writeOK_setNext (hinv.wrOK m hm)
      · rw [setNext_headerLinks_length]; exact hinv.hlinks
      · rw [setNext_nodes_length]; exact hinv.nlen
      · intro i; rw [keyOf_setNext]; exact hinv.keys i
      · intro i
        have hok2 : writeOK sA (P c) c := hokc
        rcases hok2 with ⟨hpc, _⟩ | ⟨q, hpc, hq, hLq⟩
        · rw [hpc, hgt_setNext_header]
          exact hinv.hgts i
        · rcases eq_or_ne i q with rfl | hne
          · obtain ⟨nd, hnd, hl⟩ := writeOK_node hq hLq
            rw [hpc, hgt_setNext_node_inplace hnd hl]
            exact hinv.hgts i
          · rw [hpc, hgt_setNext_node_other hne]
            exact hinv.hgts i
      · rw [setNext_size]; exact hinv.szeq
      · rw [setNext_height]; exact hinv.hteq
      · rw [setNext_rng]; exact hinv.rngeq
    · have hstep : eraseLoop maxH update (NRef.node d) (c + 1) sA
          = eraseLoop maxH update (NRef.node d) c sA := by
        simp only [eraseLoop, hupd c hc1, hread]
        cases hv : next sB (P c) c with
        | none => rfl
        | some arc =>
          have hne : arc ≠ NRef.node d := by
            intro hcn
            exact hnotd c hc1 hdc (by rw [hv, hcn])
          dsimp only
          rw [if_neg hne]
      rw [hstep]
      refine ih sA (by omega) ?_
      refine ⟨?_, ?_, hinv.wrOK, hinv.hlinks, hinv.nlen, hinv.keys, hinv.hgts,
        hinv.szeq, hinv.hteq, hinv.rngeq⟩
      · intro m hm1 hm2 hm3
        rcases Nat.eq_or_lt_of_le hm1 with rfl | hm1'
        · exact absurd hm3 hdc
        · exact hinv.done m (by omega) hm2 hm3
      · intro r L hex
        exact hinv.frame r L (fun m hm1 hm2 => hex m (by omega) hm2)

theorem shrinkLoop_spec {maxH T : Nat}
    (hlink : ∀ L, L < maxH →
      ∃ arc, next s NRef.header L = some arc ∧ (arc = NRef.nil ↔ ¬ L < T)) :
    ∀ (fuel ht : Nat), 1 ≤ ht → ht ≤ maxH → ht ≤ fuel →
      shrinkLoop fuel { s with height := ht }
        = { s with height := if ht ≤ T then 1 else ht } := by
  intro fuel
  induction fuel with
  | zero =>
    intro ht h1 _ hf
    omega
  | succ f ih =>
    intro ht h1 hm hf
    obtain ⟨arc, harc, hiff⟩ := hlink (ht - 1) (by omega)
    have hread : next ({ s with height := ht } : St K) NRef.header
        (({ s with height := ht } : St K).height - 1) = some arc := by
      show next ({ s with height := ht } : St K) NRef.header (ht - 1) = some arc
      exact (next_congr rfl rfl).trans harc
    have hunfold : shrinkLoop (f + 1) ({ s with height := ht } : St K)
        = if isNilR arc = false ∧ 1 < ht
          then shrinkLoop f { s with height := ht - 1 }
          else { s with height := ht } := by
      show (match next ({ s with height := ht } : St K) NRef.header
              (({ s with height := ht } : St K).height - 1) with
            | some arc =>
              if isNilR arc = false ∧ 1 < ({ s with height := ht } : St K).height then
                shrinkLoop f { ({ s with height := ht } : St K) with
                  height := ({ s with height := ht } : St K).height - 1 }
              else ({ s with height := ht } : St K)
            | none => ({ s with height := ht } : St K)) = _
      rw [hread]
    by_cases hT : ht ≤ T
    · have hlt : ht - 1 < T := by omega
      have harcne : arc ≠ NRef.nil := by
        intro hcn
        exact absurd hlt (by simpa using hiff.mp hcn)
      by_cases h2 : 1 < ht
      · rw [hunfold, if_pos ⟨isNilR_eq_false.mpr harcne, h2⟩,
          ih (ht - 1) (by omega) (by omega) (by omega), if_pos (by omega), if_pos hT]
      · have hht : ht = 1 := by omega
        rw [hunfold, if_neg (by rw [hht]; simp), hht, if_pos (by omega)]
    · have hnlt : ¬ ht - 1 < T := by omega
      have harceq : arc = NRef.nil := hiff.mpr hnlt
      rw [hunfold, if_neg (by rw [harceq]; simp [isNilR]), if_neg hT]

theorem erase_notfound {maxH : Nat} {live : List Nat} {k : K} (hwf : WF maxH s live)
    (hnk : ¬ ∃ i ∈ live, keyOf s i = k) :
    erase maxH s k = some (false, s) := by
  have hnf : (trace maxH s k).2.2 = false := by
    rw [Bool.eq_false_iff]
    intro hc
    exact hnk ((hitAt_iff_mem hwf hwf.one_le_max).mp ((trace_spec hwf).2.2.mp hc))
  simp [erase, hnf]

theorem erase_spec {maxH : Nat} {live : List Nat} {k : K} (hwf : WF maxH s live)
    (hk : ∃ i ∈ live, keyOf s i = k) :
    ∃ d rest sE,
      live.dropWhile (fun i => decide (keyOf s i < k)) = d :: rest ∧
      keyOf s d = k ∧
      erase maxH s k = some (true, sE) ∧
      WF maxH sE (live.takeWhile (fun i => decide (keyOf s i < k)) ++ rest) ∧
      sE.nodes.length = s.nodes.length ∧
      (∀ i, keyOf sE i = keyOf s i) ∧
      (∀ i, hgt sE i = hgt s i) ∧
      sE.size = s.size - 1 ∧
      sE.rng = s.rng ∧
      sE.height = (if s.height ≤ maxHgt s
          (live.takeWhile (fun i => decide (keyOf s i < k)) ++ rest)
        then 1 else s.height) ∧
      (∀ i ∈ live.takeWhile (fun i => decide (keyOf s i < k)) ++ rest, keyOf s i ≠ k) := by
  obtain ⟨hts1, hts2, hts3⟩ := trace_spec (k := k) hwf
  have htt : (trace maxH s k).2.2 = true :=
    hts3.mpr ((hitAt_iff_mem hwf hwf.one_le_max).mpr hk)
  obtain ⟨d0, hd0, hd0k⟩ := hk
  obtain ⟨as0, bs0, hsplit0⟩ := List.append_of_mem hd0
  have hsorsplit : (as0 ++ d0 :: bs0).Pairwise (fun a b => keyOf s a < keyOf s b) := by
    rw [← hsplit0]; exact hwf.sorted
  have hltk : ∀ x ∈ as0, keyOf s x < k := by
    intro x hx
    have hxd := (List.pairwise_append.mp hsorsplit).2.2 x hx d0 (List.mem_cons_self d0 bs0)
    rw [hd0k] at hxd
    exact hxd
  have hgekd : ∀ y ∈ bs0, k < keyOf s y := by
    intro y hy
    have hsd := (List.pairwise_append.mp hsorsplit).2.1
    have := (List.pairwise_cons.mp hsd).1 y hy
    rw [hd0k] at this
    exact this
  have hdw : live.dropWhile (fun i => decide (keyOf s i < k)) = d0 :: bs0 := by
    rw [hsplit0, dropWhile_append_all (fun x hx => decide_eq_true (hltk x hx)),
      List.dropWhile_cons, if_neg (by rw [hd0k]; simp)]
  have htw : live.takeWhile (fun i => decide (keyOf s i < k)) = as0 := by
    have h1 := List.takeWhile_append_dropWhile
      (fun i => decide (keyOf s i < k)) live
    rw [hdw] at h1
    nth_rewrite 2 [hsplit0] at h1
    exact List.append_cancel_right h1
  have hd0b : d0 < s.nodes.length := hwf.bounded d0 hd0
  have hd0nin : d0 ∉ bs0 := by
    intro hc
    have hkk := hgekd d0 hc
    rw [hd0k] at hkk
    exact lt_irrefl k hkk
  have hupd : ∀ m, m < maxH → (trace maxH s k).1.getD (maxH - m - 1) NRef.header
      = predAt s live k m := by
    intro m hm
    rw [hts1]
    exact getD_reverse_range_map hm
  have hPd : ∀ m, m < maxH → predAt s live k m ≠ NRef.node d0 := by
    intro m hm hc
    rcases predAt_cases (k := k) (L := m) hwf with hh | ⟨p, hp, _, hpk2, _⟩
    · rw [hh] at hc; cases hc
    · rw [hp] at hc
      injection hc with hii
      rw [hii, hd0k] at hpk2
      exact lt_irrefl k hpk2
  have hchainL : ∀ L, L < maxH → chain s L (predAt s live k L)
      ((d0 :: bs0).filter (fun i => decide (L < hgt s i))) := by
    intro L hL
    have hch := chain_predAt (k := k) hwf hL
    rw [dropWhile_chainAt_eq hwf, hdw] at hch
    exact hch
  have hPread : ∀ m, m < maxH → m < hgt s d0 →
      next s (predAt s live k m) m = some (NRef.node d0) := by
    intro m hm hmd
    have hch := hchainL m hm
    rw [List.filter_cons, if_pos (decide_eq_true hmd)] at hch
    exact hch.1
  have hnotd : ∀ m, m < maxH → ¬ m < hgt s d0 →
      next s (predAt s live k m) m ≠ some (NRef.node d0) := by
    intro m hm hmd hc
    have hch := hchainL m hm
    rw [List.filter_cons, if_neg (by simpa using hmd)] at hch
    cases hfc : bs0.filter (fun i => decide (m < hgt s i)) with
    | nil =>
      rw [hfc] at hch
      have hcc : next s (predAt s live k m) m = some NRef.nil := hch
      rw [hc] at hcc
      cases hcc
    | cons e es =>
      rw [hfc] at hch
      have hcc := hch.1
      rw [hc] at hcc
      injection hcc with hee
      injection hee with he2
      apply hd0nin
      rw [he2]
      exact List.Sublist.mem (List.mem_cons_self e es)
        (by rw [← hfc]; exact List.filter_sublist bs0)
  have hdOK : ∀ m, m < maxH → m < hgt s d0 →
      ∃ arc2, next s (NRef.node d0) m = some arc2 := by
    intro m hm hmd
    have hch := hchainL m hm
    rw [List.filter_cons, if_pos (decide_eq_true hmd)] at hch
    have hch2 := hch.2
    cases hfc : bs0.filter (fun i => decide (m < hgt s i)) with
    | nil =>
      rw [hfc] at hch2
      exact ⟨NRef.nil, hch2⟩
    | cons e es =>
      rw [hfc] at hch2
      exact ⟨NRef.node e, hch2.1⟩
  have hinv0 : EraseInv s (predAt s live k) d0 maxH maxH s := by
    refine ⟨?_, ?_, ?_, rfl, rfl, fun i => rfl, fun i => rfl, rfl, rfl, rfl⟩
    · intro m hm1 hm2 _
      omega
    · intro r L _
      rfl
    · intro m hm
      rcases predAt_cases (k := k) (L := m) hwf with hh | ⟨p, hp, hpl, _, hph⟩
      · refine Or.inl ⟨hh, ?_⟩
        rw [hwf.header_len]
        exact hm
      · exact Or.inr ⟨p, hp, hwf.bounded p hpl, hph⟩
  have hfinE := eraseLoop_inv hupd hPd hPread hnotd hdOK maxH s le_rfl hinv0
  set sE0 := eraseLoop maxH (trace maxH s k).1 (NRef.node d0) maxH s with hsE0
  have hnext0 : next s (trace maxH s k).2.1 0 = some (NRef.node d0) := by
    rw [hts2]
    exact hPread 0 hwf.one_le_max (hwf.hpos d0 hd0)
  have hers : erase maxH s k
      = some (true, shrinkLoop sE0.height { sE0 with size := sE0.size - 1 }) := by
    simp only [erase, htt, Bool.not_true, Bool.false_eq_true, if_false, hnext0]
  -- chains after unlinking
  have hkeyE : ∀ i, keyOf sE0 i = keyOf s i := hfinE.keys
  have hgtE : ∀ i, hgt sE0 i = hgt s i := hfinE.hgts
  have hpredL : ∀ L, predAt s live k L
      = lastRef NRef.header (as0.filter (fun i => decide (L < hgt s i))) := by
    intro L
    unfold predAt
    rw [takeWhile_chainAt_eq hwf, htw]
  have hchE : ∀ L, L < maxH → chain sE0 L NRef.header
      (as0.filter (fun i => decide (L < hgt s i)) ++
        bs0.filter (fun i => decide (L < hgt s i))) := by
    intro L hL
    have hchainAt : chainAt s live L
        = as0.filter (fun i => decide (L < hgt s i)) ++
          (d0 :: bs0).filter (fun i => decide (L < hgt s i)) := by
      unfold chainAt
      rw [hsplit0, List.filter_append]
    by_cases hLd : L < hgt s d0
    · have hold : chain s L NRef.header
          (as0.filter (fun i => decide (L < hgt s i)) ++
            d0 :: bs0.filter (fun i => decide (L < hgt s i))) := by
        have h0 := hwf.chains L hL
        rw [hchainAt, List.filter_cons, if_pos (decide_eq_true hLd)] at h0
        exact h0
      refine chain_unsplice hold ?_ ?_ ?_ ?_
      · rw [List.nodup_cons]
        constructor
        · intro hc
          obtain ⟨a, _, ha⟩ := List.mem_map.mp hc
          cases ha
        · refine List.Nodup.map (fun a b hab => by injection hab) ?_
          refine List.Sublist.nodup ?_ hwf.nodup
          refine List.Sublist.trans (List.filter_sublist _) ?_
          rw [hsplit0]
          exact (List.sublist_append_left as0 (d0 :: bs0))
      · intro x hx hxne
        refine hfinE.frame x L ?_
        intro m _ hm2 hxm
        rcases hxm with ⟨hx1, hx2, _⟩
        rw [← hx2] at hx1
        rw [hx1, hpredL L] at hxne
        exact hxne rfl
      · rw [← hpredL L]
        exact hfinE.done L (by omega) hL hLd
      · intro y hy
        refine hfinE.frame (NRef.node y) L ?_
        intro m _ hm2 hxm
        rcases hxm with ⟨hx1, hx2, _⟩
        rw [← hx2] at hx1
        have hyb : y ∈ bs0 := List.Sublist.mem hy (List.filter_sublist bs0)
        rcases predAt_cases (k := k) (L := L) hwf with hh | ⟨p, hp, _, hpk2, _⟩
        · rw [hh] at hx1; cases hx1
        · rw [hp] at hx1
          injection hx1 with hii
          rw [← hii] at hpk2
          exact absurd hpk2 (not_lt_of_gt (hgekd y hyb))
    · have hold : chain s L NRef.header
          (as0.filter (fun i => decide (L < hgt s i)) ++
            bs0.filter (fun i => decide (L < hgt s i))) := by
        have h0 := hwf.chains L hL
        rw [hchainAt, List.filter_cons, if_neg (by simpa using hLd)] at h0
        exact h0
      refine chain_frame (fun x hx => ?_) hold
      refine hfinE.frame x L ?_
      intro m _ hm2 hxm
      rcases hxm with ⟨_, hx2, hx3⟩
      rw [hx2] at hLd
      exact hLd hx3
  -- the shrink loop
  have hlink : ∀ L, L < maxH →
      ∃ arc, next ({ sE0 with size := sE0.size - 1 } : St K) NRef.header L = some arc ∧
        (arc = NRef.nil ↔ ¬ L < maxHgt s (as0 ++ bs0)) := by
    intro L hL
    have hTiff : L < maxHgt s (as0 ++ bs0) ↔
        (as0.filter (fun i => decide (L < hgt s i)) ++
          bs0.filter (fun i => decide (L < hgt s i))) ≠ [] := by
      rw [lt_maxHgt_iff]
      constructor
      · rintro ⟨i, hi, hh⟩ hnil
        rcases List.mem_append.mp hi with hi' | hi'
        · have : i ∈ as0.filter (fun i => decide (L < hgt s i)) :=
            List.mem_filter.mpr ⟨hi', decide_eq_true hh⟩
          rw [List.append_eq_nil] at hnil
          rw [hnil.1] at this
          cases this
        · have : i ∈ bs0.filter (fun i => decide (L < hgt s i)) :=
            List.mem_filter.mpr ⟨hi', decide_eq_true hh⟩
          rw [List.append_eq_nil] at hnil
          rw [hnil.2] at this
          cases this
      · intro hne
        cases hc : as0.filter (fun i => decide (L < hgt s i)) ++
            bs0.filter (fun i => decide (L < hgt s i)) with
        | nil => exact absurd hc hne
        | cons e es =>
          have he : e ∈ as0.filter (fun i => decide (L < hgt s i)) ++
              bs0.filter (fun i => decide (L < hgt s i)) := by
            rw [hc]; exact List.mem_cons_self e es
          rcases List.mem_append.mp he with he' | he'
          · refine ⟨e, List.mem_append_left bs0
              (List.Sublist.mem he' (List.filter_sublist as0)), ?_⟩
            have := (List.mem_filter.mp he').2
            simpa using this
          · refine ⟨e, List.mem_append_right as0
              (List.Sublist.mem he' (List.filter_sublist bs0)), ?_⟩
            have := (List.mem_filter.mp he').2
            simpa using this
    have hch := chain_set_size (n := sE0.size - 1) (hchE L hL)
    cases hc : as0.filter (fun i => decide (L < hgt s i)) ++
        bs0.filter (fun i => decide (L < hgt s i)) with
    | nil =>
      rw [hc] at hch
      refine ⟨NRef.nil, hch, ?_⟩
      simp only [hTiff, hc]
      simp
    | cons e es =>
      rw [hc] at hch
      refine ⟨NRef.node e, hch.1, ?_⟩
      simp only [hTiff, hc]
      constructor
      · intro hcc; cases hcc
      · intro hcc
        exact absurd (by simp : (e :: es : List Nat) ≠ []) (by simpa using hcc)
  have hszE : sE0.size = s.size := hfinE.szeq
  have hhtE : sE0.height = s.height := hfinE.hteq
  set sR : St K := { sE0 with size := sE0.size - 1,
                              height := if sE0.height ≤ maxHgt s (as0 ++ bs0)
                                        then 1 else sE0.height } with hsR
  have hshr : shrinkLoop sE0.height ({ sE0 with size := sE0.size - 1 } : St K) = sR :=
    shrinkLoop_spec hlink sE0.height sE0.height
      (by rw [hhtE]; exact hwf.height_pos)
      (by rw [hhtE]; exact hwf.height_le) le_rfl
  have hmemas : ∀ x ∈ as0, x ∈ live := by
    intro x hx
    rw [hsplit0]
    exact List.mem_append_left _ hx
  have hmembs : ∀ x ∈ bs0, x ∈ live := by
    intro x hx
    rw [hsplit0]
    exact List.mem_append_right _ (List.mem_cons_of_mem d0 hx)
  have hmem2 : ∀ x ∈ as0 ++ bs0, x ∈ live := by
    intro x hx
    rcases List.mem_append.mp hx with hx | hx
    · exact hmemas x hx
    · exact hmembs x hx
  have hkeyR : ∀ i, keyOf sR i = keyOf s i := by
    intro i
    show keyOf sE0 i = keyOf s i
    exact hkeyE i
  have hgtR : ∀ i, hgt sR i = hgt s i := by
    intro i
    show hgt sE0 i = hgt s i
    exact hgtE i
  have hlivelen : live.length = as0.length + 1 + bs0.length := by
    rw [hsplit0]
    simp
    omega
  have hwfR : WF maxH sR (as0 ++ bs0) := by
    refine ⟨hwf.one_le_max, ?_, ?_, ?_, ?_, ?_, ?_, ?_, ?_, ?_⟩
    · show sE0.headerLinks.length = maxH
      rw [hfinE.hlinks, hwf.header_len]
    · intro i hi
      show i < sE0.nodes.length
      rw [hfinE.nlen]
      exact hwf.bounded i (hmem2 i hi)
    · intro i hi
      rw [hgtR i]
      exact hwf.hpos i (hmem2 i hi)
    · intro i hi
      rw [hgtR i]
      exact hwf.hle i (hmem2 i hi)
    · have hsub : (as0 ++ bs0).Sublist live := by
        rw [hsplit0]
        exact List.Sublist.append_left (List.sublist_cons_self d0 bs0) as0
      refine List.Pairwise.imp_of_mem ?_ (List.Pairwise.sublist hsub hwf.sorted)
      intro a b _ _ hr
      rw [hkeyR a, hkeyR b]
      exact hr
    · intro L hL
      have hceq : chainAt sR (as0 ++ bs0) L
          = as0.filter (fun i => decide (L < hgt s i)) ++
            bs0.filter (fun i => decide (L < hgt s i)) := by
        unfold chainAt
        rw [show (as0 ++ bs0).filter (fun i => decide (L < hgt sR i))
            = (as0 ++ bs0).filter (fun i => decide (L < hgt s i)) from
          List.filter_congr (fun x _ => by rw [hgtR x])]
        exact List.filter_append _ _
      rw [hceq]
      refine chain_frame (fun x _ => ?_) (hchE L hL)
      exact next_congr rfl rfl
    · show sE0.size - 1 = (as0 ++ bs0).length
      rw [hszE, hwf.size_eq, hlivelen, List.length_append]
      omega
    · show 1 ≤ (if sE0.height ≤ maxHgt s (as0 ++ bs0) then 1 else sE0.height)
      by_cases hc : sE0.height ≤ maxHgt s (as0 ++ bs0)
      · rw [if_pos hc]
      · rw [if_neg hc, hhtE]
        exact hwf.height_pos
    · show (if sE0.height ≤ maxHgt s (as0 ++ bs0) then 1 else sE0.height) ≤ maxH
      by_cases hc : sE0.height ≤ maxHgt s (as0 ++ bs0)
      · rw [if_pos hc]
        exact hwf.one_le_max
      · rw [if_neg hc, hhtE]
        exact hwf.height_le
  refine ⟨d0, bs0, sR, hdw, hd0k, ?_, ?_, ?_, ?_, ?_, ?_, ?_, ?_, ?_⟩
  · rw [hers, hshr]
  · rw [htw]
    exact hwfR
  · show sE0.nodes.length = s.nodes.length
    exact hfinE.nlen
  · exact hkeyR
  · exact hgtR
  · show sE0.size - 1 = s.size - 1
    rw [hszE]
  · show sE0.rng = s.rng
    exact hfinE.rngeq
  · show (if sE0.height ≤ maxHgt s (as0 ++ bs0) then 1 else sE0.height) = _
    rw [htw, hhtE]
  · intro i hi
    rw [htw] at hi
    rcases List.mem_append.mp hi with hx | hx
    · exact ne_of_lt (hltk i hx)
    · exact (ne_of_lt (hgekd i hx)).symm

theorem walk_eq {is : List Nat} {fuel : Nat} (h : chain s L r is)
    (hfuel : is.length < fuel) : walk s L fuel r = is := by
  induction is generalizing r fuel with
  | nil =>
    cases fuel with
    | zero => omega
    | succ f =>
      have h0 : next s r L = some NRef.nil := h
      simp [walk, h0]
  | cons i t ih =>
    cases fuel with
    | zero => simp at hfuel
    | succ f =>
      have h1 : next s r L = some (NRef.node i) := h.1
      simp only [walk, h1]
      rw [ih h.2 (by simpa using Nat.lt_of_succ_lt_succ hfuel)]

theorem levelIdx_eq {maxH : Nat} {live : List Nat} (hwf : WF maxH s live) {L : Nat}
    (hL : L < maxH) : levelIdx s L = chainAt s live L := by
  unfold levelIdx
  refine walk_eq (hwf.chains L hL) ?_
  have h1 : (chainAt s live L).length ≤ live.length := (chainAt_sublist live L).length_le
  have h2 := hwf.live_length_le
  omega

theorem levelIdx_zero {maxH : Nat} {live : List Nat} (hwf : WF maxH s live) :
    levelIdx s 0 = live := by
  rw [levelIdx_eq hwf hwf.one_le_max, chainAt_zero hwf]

theorem wf_clear {maxH : Nat} (hmax : 1 ≤ maxH) (hlen : s.headerLinks.length = maxH) :
    WF maxH (clear s) [] := by
  refine ⟨hmax, ?_, ?_, ?_, ?_, ?_, ?_, rfl, le_rfl, hmax⟩
  · show (s.headerLinks.map (fun _ => NRef.nil)).length = maxH
    rw [List.length_map]
    exact hlen
  · intro i hi; cases hi
  · intro i hi; cases hi
  · intro i hi; cases hi
  · exact List.Pairwise.nil
  · intro L hL
    show next (clear s) NRef.header L = some NRef.nil
    show (s.headerLinks.map (fun _ => NRef.nil))[L]? = some NRef.nil
    rw [List.getElem?_map]
    have hlt : L < s.headerLinks.length := by rw [hlen]; exact hL
    obtain ⟨a, ha⟩ : ∃ a, s.headerLinks[L]? = some a := by
      cases hx : s.headerLinks[L]? with
      | none => rw [List.getElem?_eq_none_iff] at hx; omega
      | some a => exact ⟨a, rfl⟩
    rw [ha]
    rfl

theorem wf_mkNew {maxH : Nat} (hmax : 1 ≤ maxH) (g : Nat → Nat) :
    WF maxH (mkNew maxH g : St K) [] := by
  refine ⟨hmax, ?_, ?_, ?_, ?_, ?_, ?_, rfl, le_rfl, hmax⟩
  · show (List.replicate maxH NRef.nil).length = maxH
    exact List.length_replicate maxH NRef.nil
  · intro i hi; cases hi
  · intro i hi; cases hi
  · intro i hi; cases hi
  · exact List.Pairwise.nil
  · intro L hL
    show (List.replicate maxH NRef.nil)[L]? = some NRef.nil
    rw [List.getElem?_replicate, if_pos hL]

theorem contains_clear (s : St K) (k : K) : contains (clear s) k = false := by
  have hscan : ∀ f, scanLevel (clear s) k 0 (f + 1) NRef.header = (NRef.header, none) := by
    intro f
    cases hl : s.headerLinks with
    | nil =>
      have hnone : next (clear s) NRef.header 0 = none := by
        show (s.headerLinks.map (fun _ => NRef.nil))[0]? = none
        rw [hl]
        simp
      simp [scanLevel, hnone]
    | cons a t =>
      have hsome : next (clear s) NRef.header 0 = some NRef.nil := by
        show (s.headerLinks.map (fun _ => NRef.nil))[0]? = some NRef.nil
        rw [hl]
        simp
      simp [scanLevel, hsome, compareKey]
  show (findGo (clear s) k ((clear s).nodes.length + 1) (clear s).height NRef.header).isSome
      = false
  have hh : (clear s).height = 1 := rfl
  rw [hh]
  have hfind : findGo (clear s) k ((clear s).nodes.length + 1) 1 NRef.header = none := by
    show (match scanLevel (clear s) k 0 ((clear s).nodes.length + 1) NRef.header with
          | (_, some nd) => some nd
          | (cur2, none) => findGo (clear s) k ((clear s).nodes.length + 1) 0 cur2) = none
    rw [hscan ((clear s).nodes.length)]
    rfl
  rw [hfind]
  rfl

/-- The three public mutating/observing operations as a sequence element. -/
inductive Op (K : Type) where
  | ins : K → Op K
  | del : K → Op K
  | clr : Op K
  deriving DecidableEq

/-- Run one operation; `none` propagates the (never-reached) `expect` panic
of `erase`. -/
def runOp (maxH : Nat) (s : St K) : Op K → Option (St K)
  | Op.ins k => some (insert maxH s k).2
  | Op.del k => (erase maxH s k).map (fun r => r.2)
  | Op.clr => some (clear s)

/-- Run a sequence of operations. -/
def runOps (maxH : Nat) : St K → List (Op K) → Option (St K)
  | s, [] => some s
  | s, op :: ops =>
    match runOp maxH s op with
    | some s1 => runOps maxH s1 ops
    | none => none

theorem wf_runOp {maxH : Nat} {live : List Nat} (hwf : WF maxH s live) (op : Op K) :
    ∃ s1 live1, runOp maxH s op = some s1 ∧ WF maxH s1 live1 := by
  cases op with
  | ins k =>
    by_cases hk : ∃ i ∈ live, keyOf s i = k
    · refine ⟨s, live, ?_, hwf⟩
      show some (insert maxH s k).2 = some s
      rw [insert_found hwf hk]
    · obtain ⟨_, hwf2, _⟩ := insert_spec hwf hk
      exact ⟨(insert maxH s k).2, _, rfl, hwf2⟩
  | del k =>
    by_cases hk : ∃ i ∈ live, keyOf s i = k
    · obtain ⟨d, rest, sE, _, _, hers, hwf2, _⟩ := erase_spec hwf hk
      refine ⟨sE, _, ?_, hwf2⟩
      show (erase maxH s k).map (fun r => r.2) = some sE
      rw [hers]
      rfl
    · refine ⟨s, live, ?_, hwf⟩
      show (erase maxH s k).map (fun r => r.2) = some s
      rw [erase_notfound hwf hk]
      rfl
  | clr => exact ⟨clear s, [], rfl, wf_clear hwf.one_le_max hwf.header_len⟩

theorem wf_runOps {maxH : Nat} :
    ∀ (ops : List (Op K)) (s : St K) (live : List Nat), WF maxH s live →
      ∃ s1 live1, runOps maxH s ops = some s1 ∧ WF maxH s1 live1 := by
  intro ops
  induction ops with
  | nil => exact fun s live hwf => ⟨s, live, rfl, hwf⟩
  | cons op ops ih =>
    intro s live hwf
    obtain ⟨s1, live1, hop, hwf1⟩ := wf_runOp hwf op
    obtain ⟨s2, live2, hops, hwf2⟩ := ih s1 live1 hwf1
    refine ⟨s2, live2, ?_, hwf2⟩
    show (match runOp maxH s op with
          | some s1 => runOps maxH s1 ops
          | none => none) = some s2
    rw [hop]
    exact hops

/-- Run a sequence of operations, counting successful inserts and erases. -/
def runCount (maxH : Nat) : St K → List (Op K) → Option (St K × Nat × Nat)
  | s, [] => some (s, 0, 0)
  | s, Op.ins k :: ops =>
    match runCount maxH (insert maxH s k).2 ops with
    | some (t, n, m) => some (t, (if (insert maxH s k).1 then n + 1 else n), m)
    | none => none
  | s, Op.del k :: ops =>
    match erase maxH s k with
    | some br =>
      match runCount maxH br.2 ops with
      | some (t, n, m) => some (t, n, (if br.1 then m + 1 else m))
      | none => none
    | none => none
  | s, Op.clr :: ops => runCount maxH (clear s) ops

theorem runCount_size {maxH : Nat} :
    ∀ (ops : List (Op K)) (s : St K) (live : List Nat), WF maxH s live →
      Op.clr ∉ ops →
      ∃ t live1 n m, runCount maxH s ops = some (t, n, m) ∧ WF maxH t live1 ∧
        t.size + m = s.size + n := by
  intro ops
  induction ops with
  | nil =>
    intro s live hwf _
    exact ⟨s, live, 0, 0, rfl, hwf, rfl⟩
  | cons op ops ih =>
    intro s live hwf hnoclr
    have hnoclr2 : Op.clr ∉ ops := fun hc => hnoclr (List.mem_cons_of_mem op hc)
    cases op with
    | ins k =>
      by_cases hk : ∃ i ∈ live, keyOf s i = k
      · have hif : insert maxH s k = (false, s) := insert_found hwf hk
        obtain ⟨t, live1, n, m, hrun, hwft, hsz⟩ := ih (insert maxH s k).2 live
          (by rw [hif]; exact hwf) hnoclr2
        refine ⟨t, live1, n, m, ?_, hwft, ?_⟩
        · show (match runCount maxH (insert maxH s k).2 ops with
                | some (t, n, m) => some (t, (if (insert maxH s k).1 then n + 1 else n), m)
                | none => none) = some (t, n, m)
          rw [hrun]
          show some (t, (if (insert maxH s k).1 then n + 1 else n), m) = some (t, n, m)
          rw [hif]
          rfl
        · rw [hif] at hsz
          exact hsz
      · obtain ⟨hb, hwf2, _, _, _, hsz2, _, _⟩ := insert_spec hwf hk
        obtain ⟨t, live1, n, m, hrun, hwft, hsz⟩ := ih (insert maxH s k).2 _ hwf2 hnoclr2
        refine ⟨t, live1, n + 1, m, ?_, hwft, ?_⟩
        · show (match runCount maxH (insert maxH s k).2 ops with
                | some (t, n, m) => some (t, (if (insert maxH s k).1 then n + 1 else n), m)
                | none => none) = some (t, n + 1, m)
          rw [hrun]
          show some (t, (if (insert maxH s k).1 then n + 1 else n), m) = some (t, n + 1, m)
          rw [hb]
          rfl
        · rw [hsz2] at hsz
          omega
    | del k =>
      by_cases hk : ∃ i ∈ live, keyOf s i = k
      · obtain ⟨d, rest, sE, hdw, hdk, hers, hwf2, _, _, _, hszE, _, _, _⟩ :=
          erase_spec hwf hk
        have hs1 : 1 ≤ s.size := by
          rw [hwf.size_eq]
          obtain ⟨i, hi, _⟩ := hk
          cases live with
          | nil => cases hi
          | cons a p => simp
        obtain ⟨t, live1, n, m, hrun, hwft, hsz⟩ := ih sE _ hwf2 hnoclr2
        refine ⟨t, live1, n, m + 1, ?_, hwft, ?_⟩
        · show (match erase maxH s k with
                | some br =>
                  match runCount maxH br.2 ops with
                  | some (t, n, m) => some (t, n, (if br.1 then m + 1 else m))
                  | none => none
                | none => none) = some (t, n, m + 1)
          rw [hers]
          show (match runCount maxH sE ops with
                | some (t, n, m) => some (t, n, (if (true : Bool) then m + 1 else m))
                | none => none) = some (t, n, m + 1)
          rw [hrun]
          rfl
        · rw [hszE] at hsz
          omega
      · have hef : erase maxH s k = some (false, s) := erase_notfound hwf hk
        obtain ⟨t, live1, n, m, hrun, hwft, hsz⟩ := ih s live hwf hnoclr2
        refine ⟨t, live1, n, m, ?_, hwft, hsz⟩
        show (match erase maxH s k with
              | some br =>
                match runCount maxH br.2 ops with
                | some (t, n, m) => some (t, n, (if br.1 then m + 1 else m))
                | none => none
              | none => none) = some (t, n, m)
        rw [hef]
        show (match runCount maxH s ops with
              | some (t, n, m) => some (t, n, (if false then m + 1 else m))
              | none => none) = some (t, n, m)
        rw [hrun]
        rfl
    | clr => exact absurd (List.mem_cons_self Op.clr ops) hnoclr

theorem next_clear_header {L : Nat} (hL : L < s.headerLinks.length) :
    next (clear s) NRef.header L = some NRef.nil := by
  show (s.headerLinks.map (fun _ => NRef.nil))[L]? = some NRef.nil
  rw [List.getElem?_map]
  obtain ⟨a, ha⟩ : ∃ a, s.headerLinks[L]? = some a := by
    cases hx : s.headerLinks[L]? with
    | none =>
      rw [List.getElem?_eq_none_iff] at hx
      omega
    | some a => exact ⟨a, rfl⟩
  rw [ha]
  rfl

/-- Stated from the specification wording: the rightmost node at level `L`
whose key is strictly below `k`, or the header if no level-`L` node's key
is below `k`. -/
def rightmostBelow (s : St K) (live : List Nat) (k : K) (L : Nat) : NRef :=
  match ((chainAt s live L).filter (fun i => decide (keyOf s i < k))).getLast? with
  | none => NRef.header
  | some p => NRef.node p

theorem predAt_eq_rightmostBelow {maxH : Nat} {live : List Nat} {k : K} {L : Nat}
    (hwf : WF maxH s live) : predAt s live k L = rightmostBelow s live k L := by
  have hsorC : (chainAt s live L).Pairwise (fun a b => keyOf s a < keyOf s b) :=
    List.Pairwise.sublist (chainAt_sublist live L) hwf.sorted
  unfold predAt rightmostBelow lastRef
  rw [takeWhile_eq_filter_of_sorted hsorC]

/-- Stream used for the C1 failing input: the first `u32` draw is 4
(divisible by 4, so the first height drawn at `maxH = 2` is 2), later
draws are 1 (no further coin-flip successes). -/
def g1 : Nat → Nat := fun n => if n = 0 then 4 else 1

/-- Stream whose first two draws are divisible by 4, the rest not. -/
def g2 : Nat → Nat := fun n => if n < 2 then 8 else 3

/-- Stream with no draw divisible by 4: every drawn height is 1. -/
def wRng : Nat → Nat := fun n => 4 * n + 1

/-- A mixed operation sequence exercising insert, erase, clear and a
duplicate insert. -/
def wOps : List (Op Nat) := [Op.ins 2, Op.ins 1, Op.del 2, Op.clr, Op.ins 7, Op.ins 7]

/-- A clear-free operation sequence with a duplicate insert and an erase of
an absent key. -/
def wOps2 : List (Op Nat) := [Op.ins 4, Op.ins 9, Op.ins 4, Op.del 9, Op.del 3]

/-- A concrete well-formed two-level state holding the single key 5 as
arena node 0, of height 1. -/
def wState : St Nat :=
  { headerH := 1,
    headerLinks := [NRef.node 0, NRef.nil],
    nodes := [⟨1, 5, [NRef.nil]⟩],
    height := 1,
    size := 1,
    rng := fun _ => 1 }

theorem wState_wf : WF 2 wState [0] :=
  ⟨by decide, by decide, by decide, by decide, by decide, by decide, by decide,
   by decide, by decide, by decide⟩

/-- Claim C1, evaluated at a failing input: with `maxH = 2` and the stream
`g1`, inserting key 5 (drawn height 2) and erasing it succeeds and empties
both levels, yet the occupied height stays 2 instead of being trimmed to 1;
and inserting 5 (height 2) then 3 (height 1) and erasing 3 collapses the
occupied height to 1 although the height-2 node holding 5 is still linked
at level 1.  The shrink loop after erase keeps shrinking exactly while the
top level is populated, so the occupied height is not trimmed to the
highest populated level as claimed. -/
theorem c1_erase_height_not_trimmed :
    ((erase 2 (insert 2 (mkNew 2 g1 : St Nat) 5).2 5).map
        (fun r => (r.1, r.2.size, levelIdx r.2 0, levelIdx r.2 1, r.2.height)))
      = some (true, 0, [], [], 2) ∧
    ((erase 2 (insert 2 (insert 2 (mkNew 2 g1 : St Nat) 5).2 3).2 3).map
        (fun r => (r.1, r.2.size, levelIdx r.2 1, hgt r.2 0, r.2.height)))
      = some (true, 1, [0], 2, 1) := by
  constructor
  · decide
  · decide

/-- Claim C2: on a well-formed state, `trace` returns one predecessor per
level — at position `maxH - L - 1` the rightmost node of level `L` with key
strictly below `k`, the header if that level has none — and its match flag
is true exactly when some live node's key equals `k`. -/
theorem c2_trace_predecessors {maxH : Nat} {live : List Nat} {k : K}
    (hwf : WF maxH s live) :
    (trace maxH s k).1.length = maxH ∧
    (∀ L, L < maxH →
      (trace maxH s k).1.getD (maxH - L - 1) NRef.header = rightmostBelow s live k L) ∧
    ((trace maxH s k).2.2 = true ↔ ∃ i ∈ live, keyOf s i = k) := by
  obtain ⟨hts1, hts2, hts3⟩ := trace_spec (k := k) hwf
  refine ⟨?_, ?_, ?_⟩
  · rw [hts1]
    simp
  · intro L hL
    rw [hts1, getD_reverse_range_map hL, predAt_eq_rightmostBelow hwf]
  · rw [hts3]
    exact hitAt_iff_mem hwf hwf.one_le_max

theorem c2_trace_predecessors_witness :
    WF 2 wState [0] ∧
    ((trace 2 wState 5).1.length = 2 ∧
     (∀ L, L < 2 →
       (trace 2 wState 5).1.getD (2 - L - 1) NRef.header = rightmostBelow wState [0] 5 L) ∧
     ((trace 2 wState 5).2.2 = true ↔ ∃ i ∈ [0], keyOf wState i = 5)) :=
  ⟨wState_wf, c2_trace_predecessors wState_wf⟩

/-- Claim C3: any sequence of insert, erase and clear operations run from a
fresh list succeeds and reaches a state where the level-0 keys strictly
increase (hence are duplicate-free), and for every level `L` the nodes
linked at level `L` are exactly the level-0 nodes whose height exceeds `L`,
in the same relative order. -/
theorem c3_invariants_all_sequences (maxH : Nat) (hmax : 1 ≤ maxH) (g : Nat → Nat)
    (ops : List (Op K)) :
    ∃ s1, runOps maxH (mkNew maxH g) ops = some s1 ∧
      (levelKeys s1 0).Pairwise (fun a b => a < b) ∧
      ∀ L, L < maxH →
        levelIdx s1 L = (levelIdx s1 0).filter (fun i => decide (L < hgt s1 i)) := by
  obtain ⟨s1, live1, hrun, hwf1⟩ := wf_runOps ops (mkNew maxH g) [] (wf_mkNew hmax g)
  refine ⟨s1, hrun, ?_, ?_⟩
  · unfold levelKeys
    rw [levelIdx_zero hwf1]
    exact List.pairwise_map.mpr hwf1.sorted
  · intro L hL
    rw [levelIdx_eq hwf1 hL, levelIdx_zero hwf1]
    rfl

theorem c3_invariants_all_sequences_witness :
    (1 ≤ 3 ∧ Op.clr ∈ wOps) ∧
    ∃ s1, runOps 3 (mkNew 3 wRng) wOps = some s1 ∧
      (levelKeys s1 0).Pairwise (fun a b => a < b) ∧
      ∀ L, L < 3 →
        levelIdx s1 L = (levelIdx s1 0).filter (fun i => decide (L < hgt s1 i)) :=
  ⟨by decide, c3_invariants_all_sequences 3 (by decide) wRng wOps⟩

/-- Claim C4: inserting a key already present returns false and returns the
state unchanged, erasing an absent key returns false and returns the state
unchanged (so key set, size, occupied height, node links and generator
state are all preserved), and a second insert of the same key immediately
after a successful one returns false with the state unchanged. -/
theorem c4_noops {maxH : Nat} {live : List Nat} {k : K} (hwf : WF maxH s live) :
    ((∃ i ∈ live, keyOf s i = k) → insert maxH s k = (false, s)) ∧
    (¬ (∃ i ∈ live, keyOf s i = k) → erase maxH s k = some (false, s)) ∧
    ((insert maxH s k).1 = true →
      insert maxH (insert maxH s k).2 k = (false, (insert maxH s k).2)) := by
  refine ⟨fun hk => insert_found hwf hk, fun hk => erase_notfound hwf hk, fun hb => ?_⟩
  by_cases hk : ∃ i ∈ live, keyOf s i = k
  · rw [insert_found hwf hk] at hb
    cases hb
  · obtain ⟨_, hwf2, _, _, hkey, _⟩ := insert_spec hwf hk
    refine insert_found hwf2 ⟨s.nodes.length, ?_, hkey⟩
    exact List.mem_append_right _ (List.mem_cons_self _ _)

theorem c4_noops_witness :
    WF 2 wState [0] ∧
    (((∃ i ∈ [0], keyOf wState i = 5) → insert 2 wState 5 = (false, wState)) ∧
     (¬ (∃ i ∈ [0], keyOf wState i = 5) → erase 2 wState 5 = some (false, wState)) ∧
     ((insert 2 wState 5).1 = true →
       insert 2 (insert 2 wState 5).2 5 = (false, (insert 2 wState 5).2))) :=
  ⟨wState_wf, c4_noops wState_wf⟩

/-- Claim C5: from any well-formed state, immediately after `insert k` the
key `k` is contained; and after `insert k` followed by `erase k` (which
succeeds) the key `k` is no longer contained. -/
theorem c5_insert_erase_contains {maxH : Nat} {live : List Nat} {k : K}
    (hwf : WF maxH s live) :
    contains (insert maxH s k).2 k = true ∧
    ∃ s2, erase maxH (insert maxH s k).2 k = some (true, s2) ∧
      contains s2 k = false := by
  by_cases hk : ∃ i ∈ live, keyOf s i = k
  · have hif := insert_found hwf hk
    rw [hif]
    obtain ⟨d, rest, sE, hdw, hdk, hers, hwf2, _, hkeys, _, _, _, _, hnk⟩ :=
      erase_spec hwf hk
    refine ⟨(contains_spec hwf).mpr hk, sE, hers, ?_⟩
    rw [Bool.eq_false_iff]
    intro hc
    obtain ⟨i, hi, hik⟩ := (contains_spec hwf2).mp hc
    rw [hkeys i] at hik
    exact hnk i hi hik
  · obtain ⟨hb, hwf2, _, _, hkey, _⟩ := insert_spec hwf hk
    have hk2 : ∃ i ∈ live.takeWhile (fun i => decide (keyOf s i < k)) ++
        s.nodes.length :: live.dropWhile (fun i => decide (keyOf s i < k)),
        keyOf (insert maxH s k).2 i = k :=
      ⟨s.nodes.length, List.mem_append_right _ (List.mem_cons_self _ _), hkey⟩
    obtain ⟨d, rest, sE, hdw, hdk, hers, hwf3, _, hkeys, _, _, _, _, hnk⟩ :=
      erase_spec hwf2 hk2
    refine ⟨(contains_spec hwf2).mpr hk2, sE, hers, ?_⟩
    rw [Bool.eq_false_iff]
    intro hc
    obtain ⟨i, hi, hik⟩ := (contains_spec hwf3).mp hc
    rw [hkeys i] at hik
    exact hnk i hi hik

theorem c5_insert_erase_contains_witness :
    WF 2 wState [0] ∧
    (contains (insert 2 wState 7).2 7 = true ∧
     ∃ s2, erase 2 (insert 2 wState 7).2 7 = some (true, s2) ∧
       contains s2 7 = false) :=
  ⟨wState_wf, c5_insert_erase_contains wState_wf⟩

/-- Claim C6: for every generator stream and every positive level bound,
`random_height` draws a height that is at least 1, at most `maxH`, and
equals 1 plus the number of consecutive initial coin-flip successes (32-bit
draws divisible by 4), the count being cut off after `maxH - 1` flips
(saturation at `maxH`, never an error). -/
theorem c6_random_height (maxH : Nat) (g : Nat → Nat) (hmax : 1 ≤ maxH) :
    1 ≤ (random_height maxH g).1 ∧ (random_height maxH g).1 ≤ maxH ∧
    (random_height maxH g).1
      = 1 + ((List.range (maxH - 1)).takeWhile
          (fun n => decide (g n % 2 ^ 32 % 4 = 0))).length := by
  obtain ⟨h1, h2, h3⟩ := random_height_spec maxH g hmax
  exact ⟨h2, h3, h1⟩

theorem c6_random_height_witness :
    1 ≤ 5 ∧
    (1 ≤ (random_height 5 g2).1 ∧ (random_height 5 g2).1 ≤ 5 ∧
     (random_height 5 g2).1
       = 1 + ((List.range (5 - 1)).takeWhile
           (fun n => decide (g2 n % 2 ^ 32 % 4 = 0))).length) :=
  ⟨by decide, c6_random_height 5 g2 (by decide)⟩

/-- Claim C7: any clear-free operation sequence run from the empty list
succeeds with some count `n` of inserts returning true and `m` of erases
returning true; `m ≤ n` always holds, `size` returns `n - m`, that value is
the number of entry nodes reachable at level 0, and `empty` is true exactly
when `size` is 0. -/
theorem c7_size_counts (maxH : Nat) (hmax : 1 ≤ maxH) (g : Nat → Nat)
    (ops : List (Op K)) (hnoclr : Op.clr ∉ ops) :
    ∃ s1 n m, runCount maxH (mkNew maxH g) ops = some (s1, n, m) ∧
      m ≤ n ∧ size s1 = n - m ∧ size s1 = (levelIdx s1 0).length ∧
      (empty s1 = true ↔ size s1 = 0) := by
  obtain ⟨t, live1, n, m, hrun, hwft, hsz⟩ :=
    runCount_size ops (mkNew maxH g) [] (wf_mkNew hmax g) hnoclr
  have hsz0 : (mkNew maxH g : St K).size = 0 := rfl
  rw [hsz0] at hsz
  refine ⟨t, n, m, hrun, by omega, ?_, ?_, ?_⟩
  · show t.size = n - m
    omega
  · show t.size = (levelIdx t 0).length
    rw [levelIdx_zero hwft, hwft.size_eq]
  · simp [empty, size]

theorem c7_size_counts_witness :
    (1 ≤ 2 ∧ Op.clr ∉ wOps2) ∧
    ∃ s1 n m, runCount 2 (mkNew 2 wRng) wOps2 = some (s1, n, m) ∧
      m ≤ n ∧ size s1 = n - m ∧ size s1 = (levelIdx s1 0).length ∧
      (empty s1 = true ↔ size s1 = 0) :=
  ⟨by decide, c7_size_counts 2 (by decide) wRng wOps2 (by decide)⟩

/-- Claim C8: after `clear`, the occupied height is 1, the entry count is
0, `size` reports 0, `empty` is true, the header's successor is `Nil` at
every one of its `maxH` levels, and `contains` is false for every key. -/
theorem c8_clear (maxH : Nat) (s : St K) (hlen : s.headerLinks.length = maxH) :
    (clear s).height = 1 ∧ (clear s).size = 0 ∧ size (clear s) = 0 ∧
    empty (clear s) = true ∧
    (∀ L, L < maxH → next (clear s) NRef.header L = some NRef.nil) ∧
    (∀ k : K, contains (clear s) k = false) := by
  refine ⟨rfl, rfl, rfl, rfl, ?_, fun k => contains_clear s k⟩
  intro L hL
  exact next_clear_header (by omega)

theorem c8_clear_witness :
    wState.headerLinks.length = 2 ∧
    ((clear wState).height = 1 ∧ (clear wState).size = 0 ∧ size (clear wState) = 0 ∧
     empty (clear wState) = true ∧
     (∀ L, L < 2 → next (clear wState) NRef.header L = some NRef.nil) ∧
     (∀ k : Nat, contains (clear wState) k = false)) :=
  ⟨by decide, c8_clear 2 wState (by decide)⟩

/-- Claim C10: on a well-formed state, whenever `trace` reports a match,
the level-0 successor of the returned level-0 predecessor is an allocated
entry node whose key is exactly `k`; hence the `expect` with which `erase`
extracts the node to delete never fires, and `erase` always returns a
value. -/
theorem c10_erase_expect_total {maxH : Nat} {live : List Nat} {k : K}
    (hwf : WF maxH s live) :
    ((trace maxH s k).2.2 = true →
      ∃ d, next s (trace maxH s k).2.1 0 = some (NRef.node d) ∧
        d < s.nodes.length ∧ keyOf s d = k) ∧
    (erase maxH s k).isSome = true := by
  obtain ⟨hts1, hts2, hts3⟩ := trace_spec (k := k) hwf
  constructor
  · intro hfound
    have hk : ∃ i ∈ live, keyOf s i = k :=
      (hitAt_iff_mem hwf hwf.one_le_max).mp (hts3.mp hfound)
    obtain ⟨d, rest, sE, hdw, hdk, hers, _⟩ := erase_spec hwf hk
    refine ⟨d, ?_, ?_, hdk⟩
    · rw [hts2]
      have hch0 : chain s 0 NRef.header live := by
        have h := hwf.chains 0 hwf.one_le_max
        rwa [chainAt_zero hwf] at h
      have hsplit : live = live.takeWhile (fun i => decide (keyOf s i < k))
          ++ d :: rest := by
        rw [← hdw, List.takeWhile_append_dropWhile]
      rw [hsplit] at hch0
      have hch1 := chain_append_lastRef hch0
      have hpred : predAt s live k 0
          = lastRef NRef.header (live.takeWhile (fun i => decide (keyOf s i < k))) := by
        unfold predAt
        rw [chainAt_zero hwf]
      rw [hpred]
      exact hch1.1
    · refine hwf.bounded d ?_
      have hmem : d ∈ live.dropWhile (fun i => decide (keyOf s i < k)) := by
        rw [hdw]
        exact List.mem_cons_self d rest
      exact List.Sublist.mem hmem (List.dropWhile_sublist _)
  · by_cases hk : ∃ i ∈ live, keyOf s i = k
    · obtain ⟨d, rest, sE, _, _, hers, _⟩ := erase_spec hwf hk
      rw [hers]
      rfl
    · rw [erase_notfound hwf hk]
      rfl

theorem c10_erase_expect_total_witness :
    WF 2 wState [0] ∧
    (((trace 2 wState 5).2.2 = true →
      ∃ d, next wState (trace 2 wState 5).2.1 0 = some (NRef.node d) ∧
        d < wState.nodes.length ∧ keyOf wState d = 5) ∧
     (erase 2 wState 5).isSome = true) :=
  ⟨wState_wf, c10_erase_expect_total wState_wf⟩

end SkipListProof
